import Mathlib

/-!
Shallow embedding of `MineSweeper.py` (N-dimensional Minesweeper rules engine).

Python values are modelled as follows:
* board / visibility masks (nested Python lists) become the inductive `ND α`
  of nested arrays over cells;
* board cells (either the string `"."` or a non-negative int count) become `Cell`;
* Python list indexing, including its negative-index wrap-around and its
  `IndexError` on out-of-range indices, is modelled by `pyResolve`; fallible
  operations return `Option` (`none` = the Python call raises);
* Python sets of coordinate tuples become `Finset (List Int)`; where the code
  iterates over a set (iteration order unspecified in Python) the embedding
  iterates in the fixed sorted order given by `sortFinset`;
* the game dictionary becomes the structure `Game`.
-/

/-- Content of one board square: the mine marker `"."` or an adjacent-mine count. -/
inductive Cell where
  | mine : Cell
  | num : Nat → Cell
deriving DecidableEq, Repr

/-- The three game states `'ongoing'`, `'defeat'`, `'victory'`. -/
inductive GState where
  | ongoing : GState
  | defeat : GState
  | victory : GState
deriving DecidableEq, Repr

/-- Nested Python lists holding scalars of type `α` at the leaves. -/
inductive ND (α : Type) where
  | cell : α → ND α
  | arr : List (ND α) → ND α

/-- Python list indexing: resolve an `Int` index into a valid `Nat` position of a
list of length `n`, with Python's negative-index wrap-around; `none` models the
`IndexError` Python raises when the index is out of range. -/
def pyResolve (n : Nat) (i : Int) : Option Nat :=
  if 0 ≤ i ∧ i < (n : Int) then some i.toNat
  else if -(n : Int) ≤ i ∧ i < 0 then some ((n : Int) + i).toNat
  else none

/-- Embedding of `slice_array(arr, indices)`: walk one axis per index.  An empty
index list returns the (sub)array itself.  Indexing into a scalar cell is `none`
(Python raises `TypeError` on an int cell; the string cell `"."` would index into
itself, a case no theorem below touches). -/
def slice_array {α : Type} : ND α → List Int → Option (ND α)
  | a, [] => some a
  | ND.cell _, _ :: _ => none
  | ND.arr l, i :: rest =>
    match (pyResolve l.length i).bind l.get? with
    | none => none
    | some sub => slice_array sub rest

/-- Embedding of `slice_and_update_array(arr, indices, value)`: functional update
at a coordinate.  Python mutates in place; the embedding returns the updated
array.  An empty index list, an index into a scalar, or an out-of-range index is
`none` (Python raises). -/
def slice_and_update_array {α : Type} : ND α → List Int → ND α → Option (ND α)
  | _, [], _ => none
  | ND.cell _, _ :: _, _ => none
  | ND.arr l, [i], v =>
    (pyResolve l.length i).map fun k => ND.arr (l.set k v)
  | ND.arr l, i :: rest₁ :: rest₂, v =>
    match pyResolve l.length i with
    | none => none
    | some k =>
      match l.get? k with
      | none => none
      | some sub =>
        match slice_and_update_array sub (rest₁ :: rest₂) v with
        | none => none
        | some sub₂ => some (ND.arr (l.set k sub₂))

/-- Shared recursion of `generate_nested_list` / `generate_nested_list_false`:
build a nested list of shape `dims` with every leaf equal to `v`.  The Python
functions walk `dimensions` by position (`current_dimension`); this structural
recursion over the remaining dimensions produces the same value for any
non-empty `dims` (on empty `dims` Python raises; here the result is `ND.arr []`,
never used). -/
def genNested {α : Type} (v : α) : List Int → ND α
  | [] => ND.arr []
  | [d] => ND.arr (List.replicate d.toNat (ND.cell v))
  | d :: d₁ :: rest => ND.arr (List.replicate d.toNat (genNested v (d₁ :: rest)))

/-- Embedding of `generate_nested_list_false(dimensions, 1)`. -/
def generate_nested_list_false (dims : List Int) : ND Bool :=
  genNested false dims

/-- Embedding of `generate_nested_list(dimensions, 1)` (all cells the int `0`). -/
def generate_nested_list (dims : List Int) : ND Cell :=
  genNested (Cell.num 0) dims

/-- Embedding of `recursive_helper(mine, n, dimensions)`: the set of valid
neighbors of `mine` in the first `n` axes.  Python tuples become `List Int`;
`mine[k]` / `dimensions[k]` (always in range at call sites) become `getD k 0`.
The `n = 0` case never occurs (callers pass `n = len(dimensions) ≥ 1`). -/
def recursive_helper (mine : List Int) : Nat → List Int → Finset (List Int)
  | 0, _ => ∅
  | 1, dimensions =>
    let m0 := mine.getD 0 0
    let d0 := dimensions.getD 0 0
    (if 0 ≤ m0 + 1 ∧ m0 + 1 < d0 then {[m0 + 1]} else ∅) ∪
    (if 0 ≤ m0 - 1 ∧ m0 - 1 < d0 then {[m0 - 1]} else ∅)
  | n + 2, dimensions =>
    let mk := mine.getD (n + 1) 0
    let dk := dimensions.getD (n + 1) 0
    let new_set : Finset (List Int) :=
      (if 0 ≤ mk + 1 ∧ mk + 1 < dk then {[mk + 1]} else ∅) ∪
      (if 0 ≤ mk - 1 ∧ mk - 1 < dk then {[mk - 1]} else ∅) ∪ {[mk]}
    let newer_set : Finset (List Int) :=
      recursive_helper mine (n + 1) dimensions ∪ {mine.take (n + 1)}
    newer_set.biUnion fun nb =>
      new_set.biUnion fun nn =>
        if nb ++ nn ≠ mine then {nb ++ nn} else ∅

/-- One step of the inner loop of `increment_squares_around_mine_nd`: increment
the count at `n1` unless the square holds a mine.  Incrementing a nested list
(`list + 1`) would raise in Python, hence `none` there. -/
def incrementOne (board : ND Cell) (n1 : List Int) : Option (ND Cell) :=
  match slice_array board n1 with
  | none => none
  | some (ND.cell Cell.mine) => some board
  | some (ND.cell (Cell.num k)) =>
    slice_and_update_array board n1 (ND.cell (Cell.num (k + 1)))
  | some (ND.arr _) => none

/-- Iteration over a Python set of coordinates.  Python's set iteration order is
unspecified; the embedding iterates in lexicographically sorted order (an
insertion sort, so the extraction evaluates by kernel reduction). -/
def sortFinset (s : Finset (List Int)) : List (List Int) :=
  Quot.liftOn s.val (fun l => l.insertionSort (· ≤ ·)) fun l₁ l₂ h =>
    List.eq_of_perm_of_sorted
      ((List.perm_insertionSort _ l₁).trans
        (h.trans (List.perm_insertionSort _ l₂).symm))
      (List.sorted_insertionSort _ l₁) (List.sorted_insertionSort _ l₂)

/-- Embedding of `increment_squares_around_mine_nd(board, n, dimensions, mines)`.
Python iterates each mine's neighbor set in unspecified order; increments at
distinct coordinates commute, so the embedding fixes the lexicographic order. -/
def increment_squares_around_mine_nd (board : ND Cell) (n : Nat)
    (dimensions : List Int) (mines : List (List Int)) : Option (ND Cell) :=
  mines.foldlM
    (fun b mine =>
      (sortFinset (recursive_helper mine n dimensions)).foldlM incrementOne b)
    board

/-- The game dictionary `{'dimensions', 'board', 'visible', 'state'}`. -/
structure Game where
  dimensions : List Int
  board : ND Cell
  visible : ND Bool
  state : GState

/-- Embedding of `new_game_nd(dimensions, mines)`. -/
def new_game_nd (dimensions : List Int) (mines : List (List Int)) : Option Game := do
  let visible := generate_nested_list_false dimensions
  let board₀ := generate_nested_list dimensions
  let board₁ ← mines.foldlM
    (fun b mine => slice_and_update_array b mine (ND.cell Cell.mine)) board₀
  let board₂ ← increment_squares_around_mine_nd board₁ dimensions.length dimensions mines
  some { dimensions := dimensions, board := board₂, visible := visible,
         state := GState.ongoing }

/-- Embedding of `generate_coordinates(dimensions)`: all coordinates of the
board in row-major order (last axis varies fastest), as the Python generator
yields them. -/
def generate_coordinates : List Int → List (List Int)
  | [] => [[]]
  | d :: rest =>
    (List.range d.toNat).flatMap fun i =>
      (generate_coordinates rest).map fun c => (i : Int) :: c

/-- Fuel handed to `revealed_squares` by `dig_nd`: strictly larger than the
number of coordinates the flood fill can ever visit (each visited coordinate has
every component either checked in-bounds or copied from the start coordinate),
so the fuel never runs out where Python's recursion terminates. -/
def digFuel (dims : List Int) : Nat :=
  (dims.map fun d => d.toNat + 1).prod + 1

/-- Embedding of `revealed_squares(game, coordinates, visited)`: depth-first
flood fill.  Returns the list of revealed coordinates together with the final
visited set (Python mutates `visited` in place, so the neighbor loop threads it
through; the loop with a possible exception is a `foldlM` over `Option`).
`none` models a Python exception or fuel exhaustion (which `digFuel` rules
out). -/
def revealed_squares : Nat → Game → List Int → Finset (List Int) →
    Option (List (List Int) × Finset (List Int))
  | 0, _, _, _ => none
  | fuel + 1, g, c, visited =>
    match slice_array g.board c with
    | none => none
    | some (ND.cell (Cell.num 0)) =>
      let pns := sortFinset (recursive_helper c g.dimensions.length g.dimensions)
      pns.foldlM
        (fun st nb =>
          if nb ∈ st.2 then some st
          else
            match revealed_squares fuel g nb st.2 with
            | none => none
            | some (l, visited₂) => some (st.1 ++ l, insert nb visited₂))
        ([c], insert c visited)
    | some _ => some ([c], insert c visited)

/-- The reveal loop of `dig_nd`: mark each listed square visible, counting the
squares that were hidden (`is False`) before. -/
def revealLoop : ND Bool → List (List Int) → Nat → Option (ND Bool × Nat)
  | vis, [], cnt => some (vis, cnt)
  | vis, t :: rest, cnt =>
    match slice_array vis t with
    | none => none
    | some (ND.cell false) =>
      match slice_and_update_array vis t (ND.cell true) with
      | none => none
      | some vis₂ => revealLoop vis₂ rest (cnt + 1)
    | some _ => revealLoop vis rest cnt

/-- The win-check loop of `dig_nd`: count the coordinates that are hidden
(`is False`) and not mines, with Python's short-circuit `and`. -/
def countHiddenSafe (board : ND Cell) (vis : ND Bool) (dims : List Int) :
    Option Nat :=
  (generate_coordinates dims).foldlM
    (fun cnt i =>
      match slice_array vis i with
      | none => none
      | some (ND.cell false) =>
        match slice_array board i with
        | none => none
        | some (ND.cell Cell.mine) => some cnt
        | some _ => some (cnt + 1)
      | some _ => some cnt)
    0

/-- Embedding of `dig_nd(game, coordinates)`.  Python mutates the game and
returns the reveal count; the embedding returns both. -/
def dig_nd (g : Game) (c : List Int) : Option (Nat × Game) :=
  if g.state = GState.defeat ∨ g.state = GState.victory then some (0, g)
  else
    match slice_array g.board c with
    | none => none
    | some (ND.cell Cell.mine) =>
      (slice_and_update_array g.visible c (ND.cell true)).map fun vis₂ =>
        (1, { g with visible := vis₂, state := GState.defeat })
    | some _ =>
      match revealed_squares (digFuel g.dimensions) g c ∅ with
      | none => none
      | some (l, _) =>
        match revealLoop g.visible l 0 with
        | none => none
        | some (vis₂, revealed) =>
          match countHiddenSafe g.board vis₂ g.dimensions with
          | none => none
          | some counter =>
            if counter ≠ 0 then
              some (revealed, { g with visible := vis₂, state := GState.ongoing })
            else
              some (revealed, { g with visible := vis₂, state := GState.victory })

/-- The symbol written by `render_nd` for a revealed board value: `"."` for a
mine, `" "` for count 0, the decimal string for a positive count.  A nested list
value (only possible on malformed input) is not modelled. -/
def renderSymbol (b : ND Cell) : Option String :=
  match b with
  | ND.cell Cell.mine => some "."
  | ND.cell (Cell.num 0) => some " "
  | ND.cell (Cell.num (k + 1)) => some (toString (k + 1))
  | ND.arr _ => none

/-- Embedding of `render_nd(game, all_visible)`.  Python seeds `new_board` with
integer zeros and overwrites every coordinate; the seed value is never visible
in the result, so the embedding seeds with the string `"0"`. -/
def render_nd (g : Game) (all_visible : Bool) : Option (ND String) :=
  let coords := generate_coordinates g.dimensions
  let init := genNested "0" g.dimensions
  if all_visible then
    coords.foldlM
      (fun nb i =>
        match slice_array g.board i with
        | none => none
        | some ib =>
          match renderSymbol ib with
          | none => none
          | some s => slice_and_update_array nb i (ND.cell s))
      init
  else
    coords.foldlM
      (fun nb i =>
        match slice_array g.visible i with
        | none => none
        | some (ND.cell true) =>
          match slice_array g.board i with
          | none => none
          | some ib =>
            match renderSymbol ib with
            | none => none
            | some s => slice_and_update_array nb i (ND.cell s)
        | some _ => slice_and_update_array nb i (ND.cell "_"))
      init

/-! ### Coordinate and shape predicates -/

/-- A coordinate is canonical for `dims` when it has the same rank and every
component lies in `[0, dims[i])` (the spec's notion of a `Coordinate`). -/
def Canonical (dims c : List Int) : Prop :=
  List.Forall₂ (fun di ci => 0 ≤ ci ∧ ci < di) dims c

def canonicalDec : ∀ dims c : List Int, Decidable (Canonical dims c)
  | [], [] => .isTrue List.Forall₂.nil
  | [], _ :: _ => .isFalse (by intro h; cases h)
  | _ :: _, [] => .isFalse (by intro h; cases h)
  | d :: dims, x :: c =>
    match inferInstanceAs (Decidable (0 ≤ x ∧ x < d)), canonicalDec dims c with
    | .isTrue h₁, .isTrue h₂ => .isTrue (List.Forall₂.cons h₁ h₂)
    | .isFalse h₁, _ => .isFalse (by intro h; cases h; exact h₁ (by assumption))
    | _, .isFalse h₂ => .isFalse (by intro h; cases h; exact h₂ (by assumption))

instance : ∀ dims c : List Int, Decidable (Canonical dims c) := canonicalDec

/-- Well-shaped nested array of shape `dims`: a scalar at rank 0, and at rank
`d :: dims` a list of `d.toNat` well-shaped members. -/
inductive Shaped {α : Type} : List Int → ND α → Prop
  | cell (v : α) : Shaped [] (ND.cell v)
  | arr {d : Int} {dims : List Int} {l : List (ND α)}
      (hlen : l.length = d.toNat) (hmem : ∀ x ∈ l, Shaped dims x) :
      Shaped (d :: dims) (ND.arr l)

/-- The single-axis candidate condition checked by `recursive_helper` at axis
`k`: differ from the mine by at most one and stay inside the board. -/
def axisCond (mine dims : List Int) (k : Nat) (x : Int) : Prop :=
  x - mine.getD k 0 ≤ 1 ∧ mine.getD k 0 - x ≤ 1 ∧ 0 ≤ x ∧ x < dims.getD k 0

/-- Declarative candidate predicate over the first `n` axes. -/
def candMem (mine dims : List Int) (n : Nat) (t : List Int) : Prop :=
  t.length = n ∧ ∀ k, k < n → axisCond mine dims k (t.getD k 0)

/-- All offset vectors with entries in `{-1, 0, 1}`. -/
def offsetsFin : Nat → Finset (List Int)
  | 0 => {[]}
  | n + 1 => ({-1, 0, 1} : Finset Int).biUnion fun x =>
      (offsetsFin n).image fun t => x :: t

/-- Strictly interior coordinate: no component at a boundary. -/
def Interior (dims c : List Int) : Prop :=
  List.Forall₂ (fun di ci => 1 ≤ ci ∧ ci + 1 < di) dims c

def interiorDec : ∀ dims c : List Int, Decidable (Interior dims c)
  | [], [] => .isTrue List.Forall₂.nil
  | [], _ :: _ => .isFalse (by intro h; cases h)
  | _ :: _, [] => .isFalse (by intro h; cases h)
  | d :: dims, x :: c =>
    match inferInstanceAs (Decidable (1 ≤ x ∧ x + 1 < d)), interiorDec dims c with
    | .isTrue h₁, .isTrue h₂ => .isTrue (List.Forall₂.cons h₁ h₂)
    | .isFalse h₁, _ => .isFalse (by intro h; cases h; exact h₁ (by assumption))
    | _, .isFalse h₂ => .isFalse (by intro h; cases h; exact h₂ (by assumption))

instance : ∀ dims c : List Int, Decidable (Interior dims c) := interiorDec

/-! ### Flood fill -/

/-- One hop of the cascade: from a cell whose board value is exactly 0 to any
of its neighbors. -/
def zeroStep (g : Game) (a b : List Int) : Prop :=
  slice_array g.board a = some (ND.cell (Cell.num 0)) ∧
  b ∈ recursive_helper a g.dimensions.length g.dimensions

/-- The flood-fill set of the spec: the dug coordinate itself plus everything
reachable through chains of neighbor hops that leave only cells of value 0. -/
def Reach (g : Game) (c0 c : List Int) : Prop :=
  Relation.ReflTransGen (zeroStep g) c0 c

/-- Boolean test for a hidden cell (`slice_array` yields the scalar `false`). -/
def hiddenB (vis : ND Bool) (x : List Int) : Bool :=
  match slice_array vis x with
  | some (ND.cell false) => true
  | _ => false

/-- Boolean test for a mine cell. -/
def mineB (board : ND Cell) (x : List Int) : Bool :=
  match slice_array board x with
  | some (ND.cell Cell.mine) => true
  | _ => false

/-- The neighbor loop body of `revealed_squares`, at recursion budget `fuel`. -/
def rsStep (fuel : Nat) (g : Game) :
    List (List Int) × Finset (List Int) → List Int →
    Option (List (List Int) × Finset (List Int)) := fun st nb =>
  if nb ∈ st.2 then some st
  else
    match revealed_squares fuel g nb st.2 with
    | none => none
    | some (l, visited₂) => some (st.1 ++ l, insert nb visited₂)

/-- The set of canonical coordinates, as a finite set. -/
def canonFinset (dims : List Int) : Finset (List Int) :=
  (generate_coordinates dims).toFinset

/-- Every canonical non-mine cell of the game is visible. -/
def AllSafeVisible (g : Game) : Prop :=
  ∀ x, Canonical g.dimensions x → mineB g.board x = false →
    slice_array g.visible x = some (ND.cell true)

/-- No canonical mine cell of the game is visible. -/
def NoMineVisible (g : Game) : Prop :=
  ∀ x, Canonical g.dimensions x → mineB g.board x = true →
    slice_array g.visible x = some (ND.cell false)

/-- The board has at least one (canonical) non-mine cell. -/
def ExistsSafe (g : Game) : Prop :=
  ∃ x, Canonical g.dimensions x ∧ mineB g.board x = false

/-- Neighbors of zero-valued cells are never mines (count correctness at 0). -/
def ZeroConsistent (g : Game) : Prop :=
  ∀ a b, Canonical g.dimensions a →
    slice_array g.board a = some (ND.cell (Cell.num 0)) →
    b ∈ recursive_helper a g.dimensions.length g.dimensions →
    mineB g.board b = false

/-- The play invariant: well-shaped, zero-consistent, mines stay hidden off
the defeat state, and victory holds exactly when every safe cell is visible,
no mine is visible, and a safe cell exists at all. -/
def PlayInv (g : Game) : Prop :=
  g.dimensions ≠ [] ∧
  Shaped g.dimensions g.board ∧ Shaped g.dimensions g.visible ∧
  ZeroConsistent g ∧
  (g.state ≠ GState.defeat → NoMineVisible g) ∧
  (g.state = GState.victory ↔ AllSafeVisible g ∧ NoMineVisible g ∧ ExistsSafe g)

/-- Game states reachable by spec-level play: a successful `new_game_nd` on a
non-empty dimension list with in-bounds mines, followed by any sequence of
successful digs at in-bounds coordinates. -/
inductive Reachable : Game → Prop where
  | base (dims : List Int) (mines : List (List Int)) (g : Game) :
      dims ≠ [] → (∀ m ∈ mines, Canonical dims m) →
      new_game_nd dims mines = some g → Reachable g
  | dig (g : Game) (c : List Int) (r : Nat) (g' : Game) :
      Reachable g → Canonical g.dimensions c →
      dig_nd g c = some (r, g') → Reachable g'

def gameOne : Game := {
  dimensions := [1],
  board := ND.arr [ND.cell (Cell.num 0)],
  visible := ND.arr [ND.cell false],
  state := GState.ongoing }

def gameOneWin : Game := {
  dimensions := [1],
  board := ND.arr [ND.cell (Cell.num 0)],
  visible := ND.arr [ND.cell true],
  state := GState.victory }

def gameTwoFour : Game := {
  dimensions := [2, 4],
  board := ND.arr [ND.arr [ND.cell Cell.mine, ND.cell (Cell.num 3),
                           ND.cell (Cell.num 1), ND.cell (Cell.num 0)],
                   ND.arr [ND.cell Cell.mine, ND.cell Cell.mine,
                           ND.cell (Cell.num 1), ND.cell (Cell.num 0)]],
  visible := ND.arr [ND.arr [ND.cell false, ND.cell false,
                             ND.cell false, ND.cell false],
                     ND.arr [ND.cell false, ND.cell false,
                             ND.cell false, ND.cell false]],
  state := GState.ongoing }

theorem coe_sortFinset (s : Finset (List Int)) :
    (↑(sortFinset s) : Multiset (List Int)) = s.val := by
  cases s with
  | mk val nd =>
    induction val using Quot.inductionOn with
    | h l => exact Quot.sound (List.perm_insertionSort _ l)

theorem mem_sortFinset {x : List Int} {s : Finset (List Int)} :
    x ∈ sortFinset s ↔ x ∈ s := by
  rw [← Multiset.mem_coe, coe_sortFinset]
  exact Iff.rfl

theorem sortFinset_nodup (s : Finset (List Int)) : (sortFinset s).Nodup := by
  have h := s.nodup
  rw [← coe_sortFinset s] at h
  exact Multiset.coe_nodup.mp h

theorem Canonical.length {dims c : List Int} (h : Canonical dims c) :
    c.length = dims.length :=
  (List.Forall₂.length_eq h).symm

theorem pyResolve_of_canonical {n : Nat} {i : Int} (h0 : 0 ≤ i)
    (h1 : i < (n : Int)) : pyResolve n i = some i.toNat := by
  simp [pyResolve, h0, h1]

theorem toNat_lt_of_canonical {n : Nat} {i : Int} (h0 : 0 ≤ i)
    (h1 : i < (n : Int)) : i.toNat < n := by omega

/-- Canonical component bounds transported to the member-list length of a shaped
array. -/
theorem canonical_head_lt {d : Int} {i : Int} {l : List (ND α)}
    (hlen : l.length = d.toNat) (h0 : 0 ≤ i) (h1 : i < d) :
    0 ≤ i ∧ i < (l.length : Int) := by
  constructor
  · exact h0
  · omega

/-- Looking up a canonical coordinate in a shaped array yields a scalar. -/
theorem slice_array_shaped {α : Type} :
    ∀ {dims c : List Int} {a : ND α}, Shaped dims a → Canonical dims c →
      ∃ v, slice_array a c = some (ND.cell v) := by
  intro dims c
  induction c generalizing dims with
  | nil =>
    intro a ha hc
    cases hc
    cases ha with
    | cell v => exact ⟨v, rfl⟩
  | cons i cs ih =>
    intro a ha hc
    cases hc with
    | cons hbound hrest =>
      rename_i d ds
      cases ha with
      | arr hlen hmem =>
        rename_i l
        obtain ⟨h0, h1⟩ := hbound
        have hlt : 0 ≤ i ∧ i < (l.length : Int) := canonical_head_lt hlen h0 h1
        have hres : pyResolve l.length i = some i.toNat :=
          pyResolve_of_canonical hlt.1 hlt.2
        have hidx : i.toNat < l.length := toNat_lt_of_canonical hlt.1 hlt.2
        have hsub : l.get? i.toNat = some (l.get ⟨i.toNat, hidx⟩) :=
          List.get?_eq_get hidx
        have hmem₂ : l.get ⟨i.toNat, hidx⟩ ∈ l := List.get_mem l i.toNat hidx
        obtain ⟨v, hv⟩ := ih (hmem _ hmem₂) hrest
        refine ⟨v, ?_⟩
        simp only [slice_array, hres, Option.some_bind, hsub]
        exact hv

/-- Updating a shaped array at a canonical coordinate succeeds, preserves the
shape, writes the value there, and leaves every other canonical coordinate
unchanged. -/
theorem update_shaped {α : Type} :
    ∀ {c dims : List Int} {a : ND α}, Shaped dims a → Canonical dims c →
      c ≠ [] → ∀ v : α,
      ∃ a₂, slice_and_update_array a c (ND.cell v) = some a₂ ∧ Shaped dims a₂ ∧
        slice_array a₂ c = some (ND.cell v) ∧
        ∀ c₂, Canonical dims c₂ → c₂ ≠ c → slice_array a₂ c₂ = slice_array a c₂ := by
  intro c
  induction c with
  | nil => intro dims a _ _ hne; exact absurd rfl hne
  | cons i cs ih =>
    intro dims a ha hc _ v
    cases hc with
    | cons hbound hrest =>
      rename_i d ds
      cases ha with
      | arr hlen hmem =>
        rename_i l
        obtain ⟨h0, h1⟩ := hbound
        have hlt : 0 ≤ i ∧ i < (l.length : Int) := canonical_head_lt hlen h0 h1
        have hres : pyResolve l.length i = some i.toNat :=
          pyResolve_of_canonical hlt.1 hlt.2
        have hidx : i.toNat < l.length := toNat_lt_of_canonical hlt.1 hlt.2
        cases cs with
        | nil =>
          -- one remaining index: direct list update
          cases hrest
          have hlen₂ : (l.set i.toNat (ND.cell v)).length = l.length := by simp
          refine ⟨ND.arr (l.set i.toNat (ND.cell v)), ?_, ?_, ?_, ?_⟩
          · simp [slice_and_update_array, hres]
          · refine Shaped.arr (by simp [hlen]) ?_
            intro x hx
            rcases List.mem_or_eq_of_mem_set hx with hx₂ | rfl
            · exact hmem x hx₂
            · exact Shaped.cell v
          · have hget : (l.set i.toNat (ND.cell v))[i.toNat]? = some (ND.cell v) :=
              List.getElem?_set_self (by simpa using hidx)
            simp [slice_array, hlen₂, hres, hget]
          · intro c₂ hc₂ hne₂
            cases hc₂ with
            | cons hbound₂ hrest₂ =>
              rename_i j cs₂
              cases hrest₂
              have hj : j ≠ i := fun h => hne₂ (by rw [h])
              obtain ⟨hj0, hj1⟩ := hbound₂
              have hjlt : 0 ≤ j ∧ j < (l.length : Int) := canonical_head_lt hlen hj0 hj1
              have hjres : pyResolve l.length j = some j.toNat :=
                pyResolve_of_canonical hjlt.1 hjlt.2
              have hij : i.toNat ≠ j.toNat := by omega
              have hget : (l.set i.toNat (ND.cell v))[j.toNat]? = l[j.toNat]? :=
                List.getElem?_set_ne hij
              simp [slice_array, hjres, hget, hlen₂]
        | cons c₁ ctail =>
          -- at least two remaining indices: recurse into member i
          have hsub : l[i.toNat]? = some (l.get ⟨i.toNat, hidx⟩) := by
            rw [List.getElem?_eq_getElem hidx]
            simp [List.get_eq_getElem]
          set sub := l.get ⟨i.toNat, hidx⟩ with hsubdef
          have hmem₂ : sub ∈ l := List.get_mem l i.toNat hidx
          obtain ⟨sub₂, heq, hsh₂, hget₂, hfr₂⟩ :=
            ih (hmem sub hmem₂) hrest (by simp) v
          have hlen₂ : (l.set i.toNat sub₂).length = l.length := by simp
          refine ⟨ND.arr (l.set i.toNat sub₂), ?_, ?_, ?_, ?_⟩
          · simp [slice_and_update_array, hres, hsub, heq]
          · refine Shaped.arr (by simp [hlen]) ?_
            intro x hx
            rcases List.mem_or_eq_of_mem_set hx with hx₂ | rfl
            · exact hmem x hx₂
            · exact hsh₂
          · have hget : (l.set i.toNat sub₂)[i.toNat]? = some sub₂ :=
              List.getElem?_set_self (by simpa using hidx)
            simp [slice_array, hlen₂, hres, hget, hget₂]
          · intro c₂ hc₂ hne₂
            cases hc₂ with
            | cons hbound₂ hrest₂ =>
              rename_i j cs₂
              obtain ⟨hj0, hj1⟩ := hbound₂
              have hjlt : 0 ≤ j ∧ j < (l.length : Int) := canonical_head_lt hlen hj0 hj1
              have hjres : pyResolve l.length j = some j.toNat :=
                pyResolve_of_canonical hjlt.1 hjlt.2
              have hjidx : j.toNat < l.length := toNat_lt_of_canonical hjlt.1 hjlt.2
              by_cases hji : j = i
              · subst hji
                have hcs₂ : cs₂ ≠ c₁ :: ctail := fun h => hne₂ (by rw [h])
                have hget : (l.set j.toNat sub₂)[j.toNat]? = some sub₂ :=
                  List.getElem?_set_self (by simpa using hjidx)
                simp only [slice_array, hjres, hlen₂, Option.some_bind,
                  List.get?_eq_getElem?, hget, hsub]
                exact hfr₂ cs₂ hrest₂ hcs₂
              · have hij : j.toNat ≠ i.toNat := by omega
                have hget : (l.set i.toNat sub₂)[j.toNat]? = l[j.toNat]? :=
                  List.getElem?_set_ne (fun h => hij h.symm)
                simp [slice_array, hjres, hget, hlen₂]

/-- A freshly generated nested list is shaped. -/
theorem genNested_shaped {α : Type} (v : α) :
    ∀ dims : List Int, dims ≠ [] → Shaped dims (genNested v dims)
  | [], h => absurd rfl h
  | [d], _ => by
    refine Shaped.arr (by simp [genNested]) ?_
    intro x hx
    rw [List.eq_of_mem_replicate hx]
    exact Shaped.cell v
  | d :: d₁ :: rest, _ => by
    refine Shaped.arr (by simp [genNested]) ?_
    intro x hx
    rw [List.eq_of_mem_replicate hx]
    exact genNested_shaped v (d₁ :: rest) (by simp)

/-- Every canonical cell of a freshly generated nested list holds the seed. -/
theorem genNested_slice {α : Type} (v : α) :
    ∀ {dims c : List Int}, Canonical dims c → dims ≠ [] →
      slice_array (genNested v dims) c = some (ND.cell v) := by
  intro dims
  induction dims with
  | nil => intro c _ h; exact absurd rfl h
  | cons d ds ih =>
    intro c hc _
    cases hc with
    | cons hbound hrest =>
      rename_i i cs
      obtain ⟨h0, h1⟩ := hbound
      have hidx : i.toNat < d.toNat := by omega
      cases ds with
      | nil =>
        cases hrest
        have hres : pyResolve d.toNat i = some i.toNat :=
          pyResolve_of_canonical h0 (by omega)
        simp [genNested, slice_array, hres, List.getElem?_replicate_of_lt hidx]
      | cons d₁ rest =>
        have hres : pyResolve d.toNat i = some i.toNat :=
          pyResolve_of_canonical h0 (by omega)
        simp only [genNested, slice_array, List.length_replicate, hres,
          List.get?_eq_getElem?, Option.some_bind,
          List.getElem?_replicate_of_lt hidx]
        exact ih hrest (by simp)

/-- Membership in `generate_coordinates` is exactly canonicity. -/
theorem mem_generate_coordinates :
    ∀ {dims c : List Int}, c ∈ generate_coordinates dims ↔ Canonical dims c := by
  intro dims
  induction dims with
  | nil =>
    intro c
    constructor
    · intro h
      simp only [generate_coordinates, List.mem_singleton] at h
      subst h
      exact List.Forall₂.nil
    · intro h
      cases h
      simp [generate_coordinates]
  | cons d ds ih =>
    intro c
    simp only [generate_coordinates, List.mem_flatMap, List.mem_map, List.mem_range]
    constructor
    · rintro ⟨i, hi, c', hc', rfl⟩
      exact List.Forall₂.cons ⟨by omega, by omega⟩ (ih.mp hc')
    · intro h
      cases h with
      | cons hbound hrest =>
        rename_i x cs
        obtain ⟨h0, h1⟩ := hbound
        exact ⟨x.toNat, by omega, cs, ih.mpr hrest, by simp [Int.toNat_of_nonneg h0]⟩

/-- The coordinate enumeration has no duplicates. -/
theorem nodup_generate_coordinates :
    ∀ dims : List Int, (generate_coordinates dims).Nodup
  | [] => by simp [generate_coordinates]
  | d :: ds => by
    simp only [generate_coordinates]
    rw [List.nodup_flatMap]
    constructor
    · intro i _
      exact (nodup_generate_coordinates ds).map fun a b h => by
        simpa using h
    · refine List.Pairwise.imp ?_ (List.nodup_range d.toNat)
      intro i j hij
      simp only [Function.onFun, List.disjoint_left]
      rintro c hc hcj
      obtain ⟨c₁, _, rfl⟩ := List.mem_map.mp hc
      obtain ⟨c₂, _, heq⟩ := List.mem_map.mp hcj
      have : (i : Int) = (j : Int) := (List.cons.injEq _ _ _ _ ▸ heq.symm).1
      omega

/-! ### Characterization of `recursive_helper` -/

/-- Componentwise description of canonicity via `getD`. -/
theorem canonical_iff_getD :
    ∀ {dims c : List Int}, Canonical dims c ↔
      (c.length = dims.length ∧
       ∀ k, k < dims.length → 0 ≤ c.getD k 0 ∧ c.getD k 0 < dims.getD k 0) := by
  intro dims
  induction dims with
  | nil =>
    intro c
    constructor
    · intro h; cases h; simp
    · intro h
      rw [List.length_eq_zero.mp h.1]
      exact List.Forall₂.nil
  | cons d ds ih =>
    intro c
    constructor
    · intro h
      cases h with
      | cons hb hrest =>
        rename_i x cs
        obtain ⟨h1, h2⟩ := ih.mp hrest
        refine ⟨by simp [h1], ?_⟩
        intro k hk
        cases k with
        | zero => simpa using hb
        | succ k => simpa using h2 k (by simpa using hk)
    · intro h
      obtain ⟨hlen, hcomp⟩ := h
      cases c with
      | nil => simp at hlen
      | cons x cs =>
        refine List.Forall₂.cons (by simpa using hcomp 0 (by simp)) (ih.mpr ⟨by simpa using hlen, ?_⟩)
        intro k hk
        simpa using hcomp (k + 1) (by simpa using hk)

theorem getD_append_lt {l l₂ : List Int} {k : Nat} (h : k < l.length) :
    (l ++ l₂).getD k 0 = l.getD k 0 := by
  simp [List.getD_eq_getElem?_getD, List.getElem?_append_left h]

theorem getD_append_len {l : List Int} {x : Int} :
    (l ++ [x]).getD l.length 0 = x := by
  simp [List.getD_eq_getElem?_getD, List.getElem?_append_right (Nat.le_refl _)]

theorem getD_take_lt {l : List Int} {n k : Nat} (h : k < n) :
    (l.take n).getD k 0 = l.getD k 0 := by
  simp [List.getD_eq_getElem?_getD, List.getElem?_take_of_lt h]

/-- A list of length `n + 1` splits as its first `n` entries plus its last. -/
theorem eq_take_append_getD :
    ∀ (l : List Int) (n : Nat), l.length = n + 1 → l = l.take n ++ [l.getD n 0] := by
  intro l
  induction l with
  | nil => intro n h; simp at h
  | cons x xs ih =>
    intro n h
    cases n with
    | zero =>
      have : xs = [] := by simpa using h
      simp [this]
    | succ n =>
      have h₂ : xs.length = n + 1 := by simpa using h
      have := ih n h₂
      simp only [List.take_succ_cons, List.getD_cons_succ]
      exact congrArg (x :: ·) this

theorem candMem_take {dims mine : List Int} (hm : Canonical dims mine)
    {n : Nat} (hn : n ≤ dims.length) : candMem mine dims n (mine.take n) := by
  obtain ⟨hlen, hcomp⟩ := canonical_iff_getD.mp hm
  constructor
  · simp [hlen]
    omega
  · intro k hk
    rw [getD_take_lt hk]
    have := hcomp k (by omega)
    exact ⟨by omega, by omega, this.1, this.2⟩

theorem take_one_of_canonical {dims mine : List Int} (hm : Canonical dims mine)
    (hN : 1 ≤ dims.length) : mine.take 1 = [mine.getD 0 0] := by
  obtain ⟨hlen, _⟩ := canonical_iff_getD.mp hm
  cases mine with
  | nil => simp at hlen; omega
  | cons a as => simp

/-- Unfolding of `recursive_helper` at one axis. -/
theorem rh_one_eq (mine dims : List Int) :
    recursive_helper mine 1 dims =
      (if 0 ≤ mine.getD 0 0 + 1 ∧ mine.getD 0 0 + 1 < dims.getD 0 0
        then {[mine.getD 0 0 + 1]} else ∅) ∪
      (if 0 ≤ mine.getD 0 0 - 1 ∧ mine.getD 0 0 - 1 < dims.getD 0 0
        then {[mine.getD 0 0 - 1]} else ∅) := rfl

/-- Base case of the characterization: one axis. -/
theorem mem_rh_one {dims mine t : List Int} (hm : Canonical dims mine)
    (hN : 1 ≤ dims.length) :
    t ∈ recursive_helper mine 1 dims ↔ candMem mine dims 1 t ∧ t ≠ mine.take 1 := by
  obtain ⟨hlenm, hcompm⟩ := canonical_iff_getD.mp hm
  have hm0 := hcompm 0 (by omega)
  rw [take_one_of_canonical hm hN, rh_one_eq]
  constructor
  · intro ht
    have hcases : (0 ≤ mine.getD 0 0 + 1 ∧ mine.getD 0 0 + 1 < dims.getD 0 0 ∧
          t = [mine.getD 0 0 + 1]) ∨
        (0 ≤ mine.getD 0 0 - 1 ∧ mine.getD 0 0 - 1 < dims.getD 0 0 ∧
          t = [mine.getD 0 0 - 1]) := by
      rcases Finset.mem_union.mp ht with h | h
      · left
        by_cases hc : 0 ≤ mine.getD 0 0 + 1 ∧ mine.getD 0 0 + 1 < dims.getD 0 0
        · rw [if_pos hc] at h
          exact ⟨hc.1, hc.2, Finset.mem_singleton.mp h⟩
        · rw [if_neg hc] at h
          exact absurd h (Finset.not_mem_empty t)
      · right
        by_cases hc : 0 ≤ mine.getD 0 0 - 1 ∧ mine.getD 0 0 - 1 < dims.getD 0 0
        · rw [if_pos hc] at h
          exact ⟨hc.1, hc.2, Finset.mem_singleton.mp h⟩
        · rw [if_neg hc] at h
          exact absurd h (Finset.not_mem_empty t)
    rcases hcases with ⟨h1, h2, rfl⟩ | ⟨h1, h2, rfl⟩
    · refine ⟨⟨by simp, ?_⟩, ?_⟩
      · intro k hk
        interval_cases k
        simp only [axisCond, List.getD_cons_zero]
        refine ⟨by omega, by omega, by omega, by omega⟩
      · intro h
        have := (List.cons.injEq _ _ _ _).mp h
        omega
    · refine ⟨⟨by simp, ?_⟩, ?_⟩
      · intro k hk
        interval_cases k
        simp only [axisCond, List.getD_cons_zero]
        refine ⟨by omega, by omega, by omega, by omega⟩
      · intro h
        have := (List.cons.injEq _ _ _ _).mp h
        omega
  · rintro ⟨⟨hlen, hax⟩, hne⟩
    cases t with
    | nil => simp at hlen
    | cons x ts =>
      have hts : ts = [] := by simpa using hlen
      subst hts
      obtain ⟨ha1, ha2, ha3, ha4⟩ := hax 0 (by omega)
      simp only [List.getD_cons_zero] at ha1 ha2 ha3 ha4
      have hxne : x ≠ mine.getD 0 0 := by
        intro h; exact hne (by rw [h])
      have hx : x = mine.getD 0 0 + 1 ∨ x = mine.getD 0 0 - 1 := by omega
      rw [Finset.mem_union]
      rcases hx with rfl | rfl
      · left
        rw [if_pos ⟨by omega, by omega⟩]
        exact Finset.mem_singleton_self _
      · right
        rw [if_pos ⟨by omega, by omega⟩]
        exact Finset.mem_singleton_self _

/-- Unfolding of `recursive_helper` at two or more axes. -/
theorem rh_step_eq (mine dims : List Int) (n : Nat) :
    recursive_helper mine (n + 2) dims =
      (recursive_helper mine (n + 1) dims ∪ {mine.take (n + 1)}).biUnion fun nb =>
        ((if 0 ≤ mine.getD (n + 1) 0 + 1 ∧ mine.getD (n + 1) 0 + 1 < dims.getD (n + 1) 0
            then ({[mine.getD (n + 1) 0 + 1]} : Finset (List Int)) else ∅) ∪
          (if 0 ≤ mine.getD (n + 1) 0 - 1 ∧ mine.getD (n + 1) 0 - 1 < dims.getD (n + 1) 0
            then {[mine.getD (n + 1) 0 - 1]} else ∅) ∪
          {[mine.getD (n + 1) 0]}).biUnion fun nn =>
          if nb ++ nn ≠ mine then {nb ++ nn} else ∅ := rfl

/-- Membership in the single-axis union built by `recursive_helper`: exactly the
in-bounds values within one of the mine's component. -/
theorem mem_axis_union {m0 d0 : Int} (h0 : 0 ≤ m0) (h1 : m0 < d0) {nn : List Int} :
    nn ∈ ((if 0 ≤ m0 + 1 ∧ m0 + 1 < d0 then ({[m0 + 1]} : Finset (List Int)) else ∅) ∪
      (if 0 ≤ m0 - 1 ∧ m0 - 1 < d0 then {[m0 - 1]} else ∅) ∪ {[m0]}) ↔
    ∃ x : Int, nn = [x] ∧ x - m0 ≤ 1 ∧ m0 - x ≤ 1 ∧ 0 ≤ x ∧ x < d0 := by
  constructor
  · intro h
    rcases Finset.mem_union.mp h with h | h
    · rcases Finset.mem_union.mp h with h | h
      · by_cases hc : 0 ≤ m0 + 1 ∧ m0 + 1 < d0
        · rw [if_pos hc] at h
          exact ⟨m0 + 1, Finset.mem_singleton.mp h, by omega, by omega, by omega, by omega⟩
        · rw [if_neg hc] at h
          exact absurd h (Finset.not_mem_empty nn)
      · by_cases hc : 0 ≤ m0 - 1 ∧ m0 - 1 < d0
        · rw [if_pos hc] at h
          exact ⟨m0 - 1, Finset.mem_singleton.mp h, by omega, by omega, by omega, by omega⟩
        · rw [if_neg hc] at h
          exact absurd h (Finset.not_mem_empty nn)
    · exact ⟨m0, Finset.mem_singleton.mp h, by omega, by omega, by omega, by omega⟩
  · rintro ⟨x, rfl, hx1, hx2, hx3, hx4⟩
    have : x = m0 - 1 ∨ x = m0 ∨ x = m0 + 1 := by omega
    rcases this with rfl | rfl | rfl
    · refine Finset.mem_union_left _ (Finset.mem_union_right _ ?_)
      rw [if_pos ⟨by omega, by omega⟩]
      exact Finset.mem_singleton_self _
    · exact Finset.mem_union_right _ (Finset.mem_singleton_self _)
    · refine Finset.mem_union_left _ (Finset.mem_union_left _ ?_)
      rw [if_pos ⟨by omega, by omega⟩]
      exact Finset.mem_singleton_self _

/-- A candidate over `n + 1` axes splits into a candidate over `n` axes plus a
last-axis candidate. -/
theorem candMem_succ_iff {mine dims : List Int} {n : Nat} {t : List Int} :
    candMem mine dims (n + 1) t ↔
      ∃ nb x, t = nb ++ [x] ∧ candMem mine dims n nb ∧ axisCond mine dims n x := by
  constructor
  · rintro ⟨hlen, hax⟩
    refine ⟨t.take n, t.getD n 0, eq_take_append_getD t n hlen, ⟨?_, ?_⟩, hax n (by omega)⟩
    · simp [hlen]
    · intro k hk
      rw [getD_take_lt hk]
      exact hax k (by omega)
  · rintro ⟨nb, x, rfl, ⟨hlen, hax⟩, haxn⟩
    refine ⟨by simp [hlen], ?_⟩
    intro k hk
    by_cases hkn : k < n
    · rw [getD_append_lt (by omega)]
      exact hax k hkn
    · have hk : k = n := by omega
      subst hk
      rw [← hlen, getD_append_len, hlen]
      exact haxn

/-- Main characterization of `recursive_helper` over the first `n` axes: all
in-bounds Chebyshev candidates, except that the bottom level and the top level
exclude the mine's own prefix. -/
theorem mem_recursive_helper_aux {dims mine : List Int} (hm : Canonical dims mine) :
    ∀ n t, 1 ≤ n → n ≤ dims.length →
      (t ∈ recursive_helper mine n dims ↔
        candMem mine dims n t ∧ ((n = 1 ∨ n = dims.length) → t ≠ mine.take n)) := by
  obtain ⟨hlenm, hcompm⟩ := canonical_iff_getD.mp hm
  intro n
  induction n with
  | zero => intro t h; omega
  | succ m ih =>
    intro t h1 h2
    cases m with
    | zero =>
      rw [mem_rh_one hm (by omega)]
      constructor
      · rintro ⟨a, b⟩; exact ⟨a, fun _ => b⟩
      · rintro ⟨a, b⟩; exact ⟨a, b (Or.inl rfl)⟩
    | succ k =>
      have hmk := hcompm (k + 1) (by omega)
      have hnewer : ∀ nb, (nb ∈ recursive_helper mine (k + 1) dims ∪ {mine.take (k + 1)}
          ↔ candMem mine dims (k + 1) nb) := by
        intro nb
        rw [Finset.mem_union, Finset.mem_singleton, ih nb (by omega) (by omega)]
        constructor
        · rintro (⟨hc, _⟩ | rfl)
          · exact hc
          · exact candMem_take hm (by omega)
        · intro hc
          by_cases hb : nb = mine.take (k + 1)
          · right; exact hb
          · left; exact ⟨hc, fun _ => hb⟩
      rw [rh_step_eq]
      simp only [Finset.mem_biUnion]
      constructor
      · rintro ⟨nb, hnb, nn, hnn, ht⟩
        rw [hnewer] at hnb
        obtain ⟨x, rfl, hax⟩ := (mem_axis_union hmk.1 hmk.2).mp hnn
        by_cases hne : nb ++ [x] = mine
        · rw [if_neg (not_not_intro hne)] at ht
          exact absurd ht (Finset.not_mem_empty t)
        · rw [if_pos hne] at ht
          rw [Finset.mem_singleton] at ht
          subst ht
          refine ⟨candMem_succ_iff.mpr ⟨nb, x, rfl, hnb, hax⟩, ?_⟩
          rintro (h | h)
          · omega
          · rw [h, ← hlenm, List.take_length]
            exact hne
      · rintro ⟨hcand, hcond⟩
        obtain ⟨nb, x, rfl, hnb, hax⟩ := candMem_succ_iff.mp hcand
        refine ⟨nb, (hnewer nb).mpr hnb, [x],
          (mem_axis_union hmk.1 hmk.2).mpr ⟨x, rfl, hax.1, hax.2.1, hax.2.2.1, hax.2.2.2⟩, ?_⟩
        have hne : nb ++ [x] ≠ mine := by
          by_cases hlen2 : k + 2 = dims.length
          · have := hcond (Or.inr hlen2)
            rw [hlen2, ← hlenm, List.take_length] at this
            exact this
          · intro hcontra
            have hl2 : (nb ++ [x]).length = mine.length := by rw [hcontra]
            have hl1 : (nb ++ [x]).length = k + 2 := hcand.1
            omega
        rw [if_pos hne]
        exact Finset.mem_singleton_self _

/-- Top-level characterization: the neighbors of a canonical coordinate are
exactly the canonical coordinates within Chebyshev distance one, the coordinate
itself excluded. -/
theorem mem_recursive_helper {dims mine : List Int} (hm : Canonical dims mine)
    (hN : 1 ≤ dims.length) (t : List Int) :
    t ∈ recursive_helper mine dims.length dims ↔
      candMem mine dims dims.length t ∧ t ≠ mine := by
  rw [mem_recursive_helper_aux hm dims.length t hN (le_refl _)]
  have htake : mine.take dims.length = mine := by
    rw [← (canonical_iff_getD.mp hm).1]
    exact List.take_length mine
  rw [htake]
  constructor
  · rintro ⟨a, b⟩; exact ⟨a, b (Or.inr rfl)⟩
  · rintro ⟨a, b⟩; exact ⟨a, fun _ => b⟩

theorem candMem_canonical {dims mine t : List Int}
    (h : candMem mine dims dims.length t) : Canonical dims t :=
  canonical_iff_getD.mpr ⟨h.1, fun k hk => ⟨(h.2 k hk).2.2.1, (h.2 k hk).2.2.2⟩⟩

/-- Neighbor coordinates of a canonical coordinate are canonical. -/
theorem mem_rh_canonical {dims mine t : List Int} (hm : Canonical dims mine)
    (hN : 1 ≤ dims.length) (ht : t ∈ recursive_helper mine dims.length dims) :
    Canonical dims t :=
  candMem_canonical ((mem_recursive_helper hm hN t).mp ht).1

theorem candMem_iff_of_canonical {dims mine t : List Int} (ht : Canonical dims t) :
    candMem mine dims dims.length t ↔
      ∀ k, k < dims.length →
        t.getD k 0 - mine.getD k 0 ≤ 1 ∧ mine.getD k 0 - t.getD k 0 ≤ 1 := by
  obtain ⟨hlen, hcomp⟩ := canonical_iff_getD.mp ht
  constructor
  · intro h k hk
    exact ⟨(h.2 k hk).1, (h.2 k hk).2.1⟩
  · intro h
    exact ⟨hlen, fun k hk =>
      ⟨(h k hk).1, (h k hk).2, (hcomp k hk).1, (hcomp k hk).2⟩⟩

/-- The neighbor relation is symmetric on canonical coordinates. -/
theorem mem_rh_symm {dims a b : List Int} (ha : Canonical dims a)
    (hb : Canonical dims b) (hN : 1 ≤ dims.length) :
    (b ∈ recursive_helper a dims.length dims ↔
      a ∈ recursive_helper b dims.length dims) := by
  rw [mem_recursive_helper ha hN b, mem_recursive_helper hb hN a,
    candMem_iff_of_canonical hb, candMem_iff_of_canonical ha]
  constructor
  · rintro ⟨h1, h2⟩
    exact ⟨fun k hk => ⟨(h1 k hk).2, (h1 k hk).1⟩, fun hcon => h2 hcon.symm⟩
  · rintro ⟨h1, h2⟩
    exact ⟨fun k hk => ⟨(h1 k hk).2, (h1 k hk).1⟩, fun hcon => h2 hcon.symm⟩

/-! ### Cardinality of the neighbor set at interior coordinates -/

theorem getD_zipWith_add :
    ∀ (a b : List Int) (k : Nat), k < a.length → k < b.length →
      (List.zipWith (· + ·) a b).getD k 0 = a.getD k 0 + b.getD k 0 := by
  intro a
  induction a with
  | nil => intro b k h; simp at h
  | cons x xs ih =>
    intro b k h1 h2
    cases b with
    | nil => simp at h2
    | cons y ys =>
      cases k with
      | zero => simp
      | succ k =>
        simpa using ih ys k (by simpa using h1) (by simpa using h2)

theorem eq_of_getD_eq :
    ∀ {a b : List Int}, a.length = b.length →
      (∀ k, k < a.length → a.getD k 0 = b.getD k 0) → a = b := by
  intro a
  induction a with
  | nil =>
    intro b hlen _
    exact (List.length_eq_zero.mp hlen.symm).symm
  | cons x xs ih =>
    intro b hlen h
    cases b with
    | nil => simp at hlen
    | cons y ys =>
      have hx : x = y := by simpa using h 0 (by simp)
      have hxs : xs = ys := by
        refine ih (by simpa using hlen) ?_
        intro k hk
        simpa using h (k + 1) (by simpa using hk)
      rw [hx, hxs]

theorem mem_offsetsFin :
    ∀ {n : Nat} {t : List Int}, t ∈ offsetsFin n ↔
      t.length = n ∧ ∀ k, k < n → t.getD k 0 = -1 ∨ t.getD k 0 = 0 ∨ t.getD k 0 = 1 := by
  intro n
  induction n with
  | zero =>
    intro t
    simp only [offsetsFin, Finset.mem_singleton]
    constructor
    · rintro rfl; simp
    · rintro ⟨hlen, _⟩
      exact List.length_eq_zero.mp hlen
  | succ n ih =>
    intro t
    simp only [offsetsFin, Finset.mem_biUnion, Finset.mem_image]
    constructor
    · rintro ⟨x, hx, t₂, ht₂, rfl⟩
      obtain ⟨hlen, hcomp⟩ := ih.mp ht₂
      refine ⟨by simp [hlen], ?_⟩
      intro k hk
      cases k with
      | zero =>
        simp only [List.getD_cons_zero]
        simpa using hx
      | succ k => simpa using hcomp k (by omega)
    · rintro ⟨hlen, hcomp⟩
      cases t with
      | nil => simp at hlen
      | cons x ts =>
        refine ⟨x, ?_, ts, ih.mpr ⟨by simpa using hlen, ?_⟩, rfl⟩
        · simpa using hcomp 0 (by omega)
        · intro k hk
          simpa using hcomp (k + 1) (by omega)

theorem card_offsetsFin : ∀ n : Nat, (offsetsFin n).card = 3 ^ n := by
  intro n
  induction n with
  | zero => simp [offsetsFin]
  | succ n ih =>
    rw [offsetsFin, Finset.card_biUnion]
    · have himg : ∀ x : Int, ((offsetsFin n).image fun t => x :: t).card = 3 ^ n := by
        intro x
        rw [Finset.card_image_of_injective _ (fun a b h => by simpa using h)]
        exact ih
      simp [himg]
      ring
    · intro x hx y hy hxy
      simp only [Finset.disjoint_left, Finset.mem_image]
      rintro c ⟨t₁, _, rfl⟩ ⟨t₂, _, heq⟩
      exact hxy ((List.cons.injEq _ _ _ _).mp heq.symm).1

theorem getD_zipWith (f : Int → Int → Int) :
    ∀ (a b : List Int) (k : Nat), k < a.length → k < b.length →
      (List.zipWith f a b).getD k 0 = f (a.getD k 0) (b.getD k 0) := by
  intro a
  induction a with
  | nil => intro b k h; simp at h
  | cons x xs ih =>
    intro b k h1 h2
    cases b with
    | nil => simp at h2
    | cons y ys =>
      cases k with
      | zero => simp
      | succ k =>
        simpa using ih ys k (by simpa using h1) (by simpa using h2)

theorem getD_replicate {x : Int} {n k : Nat} (hk : k < n) :
    (List.replicate n x).getD k 0 = x := by
  simp [List.getD_eq_getElem?_getD, List.getElem?_replicate, hk]

theorem interior_canonical {dims c : List Int} (h : Interior dims c) :
    Canonical dims c :=
  List.Forall₂.imp (fun _ _ hab => ⟨by omega, by omega⟩) h

theorem interior_iff_getD :
    ∀ {dims c : List Int}, Interior dims c ↔
      (c.length = dims.length ∧
       ∀ k, k < dims.length → 1 ≤ c.getD k 0 ∧ c.getD k 0 + 1 < dims.getD k 0) := by
  intro dims
  induction dims with
  | nil =>
    intro c
    constructor
    · intro h; cases h; simp
    · intro h
      rw [List.length_eq_zero.mp h.1]
      exact List.Forall₂.nil
  | cons d ds ih =>
    intro c
    constructor
    · intro h
      cases h with
      | cons hb hrest =>
        obtain ⟨h1, h2⟩ := ih.mp hrest
        refine ⟨by simp [h1], ?_⟩
        intro k hk
        cases k with
        | zero => simpa using hb
        | succ k => simpa using h2 k (by simpa using hk)
    · intro h
      obtain ⟨hlen, hcomp⟩ := h
      cases c with
      | nil => simp at hlen
      | cons x cs =>
        refine List.Forall₂.cons (by simpa using hcomp 0 (by simp))
          (ih.mpr ⟨by simpa using hlen, ?_⟩)
        intro k hk
        simpa using hcomp (k + 1) (by simpa using hk)

/-- At an interior coordinate the candidates are exactly the coordinate plus an
offset vector from `{-1,0,1}^N`. -/
theorem candMem_interior_iff {dims mine : List Int} (hmi : Interior dims mine)
    {t : List Int} :
    candMem mine dims dims.length t ↔
      ∃ δ ∈ offsetsFin dims.length, t = List.zipWith (· + ·) mine δ := by
  obtain ⟨hlenm, hcompm⟩ := interior_iff_getD.mp hmi
  constructor
  · rintro ⟨hlen, hax⟩
    refine ⟨List.zipWith (fun a b => a - b) t mine, ?_, ?_⟩
    · rw [mem_offsetsFin]
      refine ⟨by simp [hlen, hlenm], ?_⟩
      intro k hk
      rw [getD_zipWith _ t mine k (by omega) (by omega)]
      obtain ⟨hb1, hb2, _, _⟩ := hax k hk
      omega
    · refine eq_of_getD_eq (by simp [hlen, hlenm]) ?_
      intro k hk
      rw [getD_zipWith _ mine _ k (by omega) (by simp; omega),
        getD_zipWith _ t mine k (by omega) (by omega)]
      ring
  · rintro ⟨δ, hδ, rfl⟩
    obtain ⟨hlenδ, hcompδ⟩ := mem_offsetsFin.mp hδ
    refine ⟨by simp [hlenδ, hlenm], ?_⟩
    intro k hk
    have hz : (List.zipWith (· + ·) mine δ).getD k 0 = mine.getD k 0 + δ.getD k 0 :=
      getD_zipWith (· + ·) mine δ k (by omega) (by omega)
    refine ⟨?_, ?_, ?_, ?_⟩ <;> rw [hz]
    · rcases hcompδ k hk with h | h | h <;> omega
    · rcases hcompδ k hk with h | h | h <;> omega
    · have := hcompm k hk
      rcases hcompδ k hk with h | h | h <;> omega
    · have := hcompm k hk
      rcases hcompδ k hk with h | h | h <;> omega

/-- At an interior coordinate the neighbor set is the full offset image minus
the coordinate itself. -/
theorem rh_interior_eq {dims mine : List Int} (hmi : Interior dims mine)
    (hN : 1 ≤ dims.length) :
    recursive_helper mine dims.length dims =
      ((offsetsFin dims.length).image fun δ => List.zipWith (· + ·) mine δ) \ {mine} := by
  ext t
  rw [mem_recursive_helper (interior_canonical hmi) hN t, Finset.mem_sdiff,
    Finset.mem_singleton, Finset.mem_image, candMem_interior_iff hmi]
  constructor
  · rintro ⟨⟨δ, hδ, rfl⟩, hne⟩
    exact ⟨⟨δ, hδ, rfl⟩, hne⟩
  · rintro ⟨⟨δ, hδ, rfl⟩, hne⟩
    exact ⟨⟨δ, hδ, rfl⟩, hne⟩

/-- The neighbor set of an interior coordinate has exactly `3^N - 1` elements. -/
theorem card_rh_interior {dims mine : List Int} (hmi : Interior dims mine)
    (hN : 1 ≤ dims.length) :
    (recursive_helper mine dims.length dims).card = 3 ^ dims.length - 1 := by
  obtain ⟨hlenm, hcompm⟩ := interior_iff_getD.mp hmi
  have hmine_mem : mine ∈ (offsetsFin dims.length).image
      fun δ => List.zipWith (· + ·) mine δ := by
    rw [Finset.mem_image]
    refine ⟨List.replicate dims.length 0, ?_, ?_⟩
    · rw [mem_offsetsFin]
      exact ⟨by simp, fun k hk => by rw [getD_replicate hk]; tauto⟩
    · refine (eq_of_getD_eq (by simp [hlenm]) ?_).symm
      intro k hk
      rw [getD_zipWith _ mine _ k (by omega) (by simp; omega),
        getD_replicate (by omega : k < dims.length)]
      ring
  have hinj : Set.InjOn (fun δ => List.zipWith (· + ·) mine δ)
      (offsetsFin dims.length : Set (List Int)) := by
    intro δ₁ h₁ δ₂ h₂ heq
    obtain ⟨hl₁, _⟩ := mem_offsetsFin.mp h₁
    obtain ⟨hl₂, _⟩ := mem_offsetsFin.mp h₂
    refine eq_of_getD_eq (by omega) ?_
    intro k hk
    have heq₂ : List.zipWith (· + ·) mine δ₁ = List.zipWith (· + ·) mine δ₂ := heq
    have e₁ : (List.zipWith (· + ·) mine δ₁).getD k 0 = mine.getD k 0 + δ₁.getD k 0 :=
      getD_zipWith (· + ·) mine δ₁ k (by omega) (by omega)
    have e₂ : (List.zipWith (· + ·) mine δ₂).getD k 0 = mine.getD k 0 + δ₂.getD k 0 :=
      getD_zipWith (· + ·) mine δ₂ k (by omega) (by omega)
    have e₃ : (List.zipWith (· + ·) mine δ₁).getD k 0 =
        (List.zipWith (· + ·) mine δ₂).getD k 0 := by rw [heq₂]
    omega
  rw [rh_interior_eq hmi hN, Finset.card_sdiff (Finset.singleton_subset_iff.mpr hmine_mem),
    Finset.card_image_of_injOn hinj, card_offsetsFin, Finset.card_singleton]

/-- C8: for every in-bounds coordinate, the neighbor set computed by
`recursive_helper` contains exactly the in-bounds coordinates differing from it
by -1, 0, or +1 independently in each axis, the coordinate itself excluded;
when the coordinate is strictly interior, the set has exactly `3^N - 1`
elements. -/
theorem C8_neighbor_set {dims c : List Int} (hc : Canonical dims c)
    (hN : 1 ≤ dims.length) :
    (∀ t : List Int, t ∈ recursive_helper c dims.length dims ↔
      (Canonical dims t ∧
       (∀ k, k < dims.length →
         t.getD k 0 - c.getD k 0 ≤ 1 ∧ c.getD k 0 - t.getD k 0 ≤ 1) ∧
       t ≠ c)) ∧
    (Interior dims c →
      (recursive_helper c dims.length dims).card = 3 ^ dims.length - 1) := by
  constructor
  · intro t
    rw [mem_recursive_helper hc hN t]
    constructor
    · rintro ⟨hcand, hne⟩
      exact ⟨candMem_canonical hcand,
        (candMem_iff_of_canonical (candMem_canonical hcand)).mp hcand, hne⟩
    · rintro ⟨hcan, hdiff, hne⟩
      exact ⟨(candMem_iff_of_canonical hcan).mpr hdiff, hne⟩
  · intro hint
    exact card_rh_interior hint hN

/-- Witness for C8 on the 3x3 board at the interior coordinate (1,1). -/
theorem C8_neighbor_set_witness :
    ([0, 1] : List Int) ∈ recursive_helper [1, 1] ([3, 3] : List Int).length [3, 3] ∧
    (recursive_helper [1, 1] ([3, 3] : List Int).length [3, 3]).card = 3 ^ 2 - 1 := by
  have h := @C8_neighbor_set [3, 3] [1, 1] (by decide) (by decide)
  exact ⟨(h.1 [0, 1]).mpr ⟨by decide, by decide, by decide⟩, h.2 (by decide)⟩

/-! ### Board construction (`new_game_nd`) -/

/-- Canonical coordinates are non-empty when there is at least one dimension. -/
theorem canonical_ne_nil {dims c : List Int} (hc : Canonical dims c)
    (hd : dims ≠ []) : c ≠ [] := by
  intro h
  subst h
  cases hc
  exact hd rfl

/-- Writing the mine marker at each mine coordinate: succeeds, keeps the shape,
puts a mine exactly at the listed coordinates and leaves the rest alone. -/
theorem placeMines_spec {dims : List Int} (hd : dims ≠ []) :
    ∀ (mines : List (List Int)) (b : ND Cell), Shaped dims b →
      (∀ m ∈ mines, Canonical dims m) →
      ∃ b₂, (mines.foldlM
          (fun b mine => slice_and_update_array b mine (ND.cell Cell.mine)) b)
          = some b₂ ∧ Shaped dims b₂ ∧
        ∀ c, Canonical dims c →
          (c ∈ mines → slice_array b₂ c = some (ND.cell Cell.mine)) ∧
          (c ∉ mines → slice_array b₂ c = slice_array b c) := by
  intro mines
  induction mines with
  | nil =>
    intro b hb _
    exact ⟨b, rfl, hb, fun c _ => ⟨fun h => absurd h (List.not_mem_nil c), fun _ => rfl⟩⟩
  | cons m ms ih =>
    intro b hb hcan
    have hmcan : Canonical dims m := hcan m (List.mem_cons_self m ms)
    obtain ⟨b₁, hupd, hsh₁, hget₁, hfr₁⟩ :=
      update_shaped hb hmcan (canonical_ne_nil hmcan hd) Cell.mine
    obtain ⟨b₂, hfold, hsh₂, hspec⟩ :=
      ih b₁ hsh₁ (fun x hx => hcan x (List.mem_cons_of_mem m hx))
    refine ⟨b₂, ?_, hsh₂, ?_⟩
    · simpa [hupd] using hfold
    · intro c hc
      constructor
      · intro hcm
        rcases List.mem_cons.mp hcm with rfl | hcm₂
        · by_cases hcms : c ∈ ms
          · exact (hspec c hc).1 hcms
          · rw [(hspec c hc).2 hcms]
            exact hget₁
        · exact (hspec c hc).1 hcm₂
      · intro hcm
        have hne : c ≠ m := fun h => hcm (h ▸ List.mem_cons_self m ms)
        have hcms : c ∉ ms := fun h => hcm (List.mem_cons_of_mem m h)
        rw [(hspec c hc).2 hcms]
        exact hfr₁ c hc hne

/-- One pass of the inner increment loop over a duplicate-free list of canonical
coordinates: mines are untouched, every listed count cell gains one, unlisted
count cells are unchanged. -/
theorem incLoop_spec {dims : List Int} (hd : dims ≠ []) :
    ∀ (ns : List (List Int)) (b : ND Cell), Shaped dims b →
      (∀ x ∈ ns, Canonical dims x) → ns.Nodup →
      ∃ b₂, ns.foldlM incrementOne b = some b₂ ∧ Shaped dims b₂ ∧
        ∀ c, Canonical dims c →
          (slice_array b c = some (ND.cell Cell.mine) →
            slice_array b₂ c = some (ND.cell Cell.mine)) ∧
          (∀ k, slice_array b c = some (ND.cell (Cell.num k)) →
            slice_array b₂ c =
              some (ND.cell (Cell.num (k + (if c ∈ ns then 1 else 0))))) := by
  intro ns
  induction ns with
  | nil =>
    intro b hb _ _
    exact ⟨b, rfl, hb, fun c _ =>
      ⟨fun h => h, fun k h => by simpa using h⟩⟩
  | cons x xs ih =>
    intro b hb hcan hnd
    have hxcan : Canonical dims x := hcan x (List.mem_cons_self x xs)
    have hxs : x ∉ xs := (List.nodup_cons.mp hnd).1
    obtain ⟨v, hv⟩ := slice_array_shaped hb hxcan
    -- step: incrementOne b x
    cases v with
    | mine =>
      have hstep : incrementOne b x = some b := by
        simp [incrementOne, hv]
      obtain ⟨b₂, hfold, hsh₂, hspec⟩ :=
        ih b hb (fun y hy => hcan y (List.mem_cons_of_mem x hy))
          (List.nodup_cons.mp hnd).2
      refine ⟨b₂, by simpa [hstep] using hfold, hsh₂, ?_⟩
      intro c hc
      refine ⟨(hspec c hc).1, ?_⟩
      intro k hk
      have hcx : c ≠ x := by
        intro h
        subst h
        rw [hv] at hk
        simp at hk
      rw [(hspec c hc).2 k hk]
      simp [List.mem_cons, hcx]
    | num k₀ =>
      obtain ⟨b₁, hupd, hsh₁, hget₁, hfr₁⟩ :=
        update_shaped hb hxcan (canonical_ne_nil hxcan hd) (Cell.num (k₀ + 1))
      have hstep : incrementOne b x = some b₁ := by
        simp [incrementOne, hv, hupd]
      obtain ⟨b₂, hfold, hsh₂, hspec⟩ :=
        ih b₁ hsh₁ (fun y hy => hcan y (List.mem_cons_of_mem x hy))
          (List.nodup_cons.mp hnd).2
      refine ⟨b₂, by simpa [hstep] using hfold, hsh₂, ?_⟩
      intro c hc
      constructor
      · intro hmine
        have hcx : c ≠ x := by
          intro h
          subst h
          rw [hv] at hmine
          simp at hmine
        refine (hspec c hc).1 ?_
        rw [hfr₁ c hc hcx]
        exact hmine
      · intro k hk
        by_cases hcx : c = x
        · subst hcx
          rw [hv] at hk
          have hkk : k = k₀ := by
            have := hk
            simp [Cell.num.injEq] at this
            omega
          subst hkk
          have := (hspec c hc).2 (k + 1) hget₁
          rw [this]
          simp [List.mem_cons, hxs]
        · have hb₁c : slice_array b₁ c = some (ND.cell (Cell.num k)) := by
            rw [hfr₁ c hc hcx]
            exact hk
          rw [(hspec c hc).2 k hb₁c]
          simp [List.mem_cons, hcx]

/-- Full increment pass: every count cell ends with its original value plus the
number of processed mines it neighbors; mine cells stay mines. -/
theorem increment_spec {dims : List Int} (hd : dims ≠ []) :
    ∀ (mines : List (List Int)) (b : ND Cell), Shaped dims b →
      (∀ m ∈ mines, Canonical dims m) →
      ∃ b₂, increment_squares_around_mine_nd b dims.length dims mines = some b₂ ∧
        Shaped dims b₂ ∧
        ∀ c, Canonical dims c →
          (slice_array b c = some (ND.cell Cell.mine) →
            slice_array b₂ c = some (ND.cell Cell.mine)) ∧
          (∀ k, slice_array b c = some (ND.cell (Cell.num k)) →
            slice_array b₂ c = some (ND.cell (Cell.num (k +
              mines.countP fun m =>
                decide (c ∈ recursive_helper m dims.length dims))))) := by
  have hN : 1 ≤ dims.length := by
    cases dims with
    | nil => exact absurd rfl hd
    | cons d ds => simp
  intro mines
  induction mines with
  | nil =>
    intro b hb _
    exact ⟨b, rfl, hb, fun c _ =>
      ⟨fun h => h, fun k h => by simpa using h⟩⟩
  | cons m ms ih =>
    intro b hb hcan
    have hmcan : Canonical dims m := hcan m (List.mem_cons_self m ms)
    set ns := sortFinset (recursive_helper m dims.length dims) with hns
    have hnscan : ∀ x ∈ ns, Canonical dims x := by
      intro x hx
      exact mem_rh_canonical hmcan hN (mem_sortFinset.mp hx)
    have hnsnd : ns.Nodup := sortFinset_nodup _
    obtain ⟨b₁, hloop, hsh₁, hspec₁⟩ := incLoop_spec hd ns b hb hnscan hnsnd
    obtain ⟨b₂, hfold, hsh₂, hspec₂⟩ :=
      ih b₁ hsh₁ (fun y hy => hcan y (List.mem_cons_of_mem m hy))
    refine ⟨b₂, ?_, hsh₂, ?_⟩
    · rw [increment_squares_around_mine_nd] at *
      rw [List.foldlM_cons]
      rw [← hns, hloop]
      simpa using hfold
    · intro c hc
      constructor
      · intro hmine
        exact (hspec₂ c hc).1 ((hspec₁ c hc).1 hmine)
      · intro k hk
        have h₁ := (hspec₁ c hc).2 k hk
        have h₂ := (hspec₂ c hc).2 _ h₁
        rw [h₂]
        simp only [Option.some.injEq, ND.cell.injEq, Cell.num.injEq, List.countP_cons]
        have hmem : (c ∈ ns) ↔ c ∈ recursive_helper m dims.length dims :=
          mem_sortFinset
        by_cases hcm : c ∈ recursive_helper m dims.length dims
        · rw [if_pos (hmem.mpr hcm), if_pos (by simpa using hcm)]
          omega
        · rw [if_neg (fun hco => hcm (hmem.mp hco)), if_neg (by simpa using hcm)]
          omega

/-- Full description of a freshly constructed game. -/
theorem new_game_spec {dims : List Int} {mines : List (List Int)} (hd : dims ≠ [])
    (hm : ∀ m ∈ mines, Canonical dims m) :
    ∃ g, new_game_nd dims mines = some g ∧
      g.dimensions = dims ∧ g.state = GState.ongoing ∧
      g.visible = generate_nested_list_false dims ∧
      Shaped dims g.board ∧ Shaped dims g.visible ∧
      (∀ c, Canonical dims c → slice_array g.visible c = some (ND.cell false)) ∧
      (∀ c, Canonical dims c → c ∈ mines →
        slice_array g.board c = some (ND.cell Cell.mine)) ∧
      (∀ c, Canonical dims c → c ∉ mines →
        slice_array g.board c = some (ND.cell (Cell.num
          (mines.countP fun m =>
            decide (c ∈ recursive_helper m dims.length dims))))) := by
  have hsh₀ : Shaped dims (generate_nested_list dims) :=
    genNested_shaped (Cell.num 0) dims hd
  obtain ⟨b₁, hfold, hsh₁, hspec₁⟩ := placeMines_spec hd mines _ hsh₀ hm
  obtain ⟨b₂, hinc, hsh₂, hspec₂⟩ := increment_spec hd mines b₁ hsh₁ hm
  refine ⟨{ dimensions := dims, board := b₂,
            visible := generate_nested_list_false dims,
            state := GState.ongoing }, ?_, rfl, rfl, rfl, hsh₂,
    genNested_shaped false dims hd, ?_, ?_, ?_⟩
  · simp [new_game_nd, hfold, hinc]
  · intro c hc
    exact genNested_slice false hc hd
  · intro c hc hcm
    exact (hspec₂ c hc).1 ((hspec₁ c hc).1 hcm)
  · intro c hc hcm
    have h₀ : slice_array b₁ c = some (ND.cell (Cell.num 0)) := by
      rw [(hspec₁ c hc).2 hcm]
      exact genNested_slice (Cell.num 0) hc hd
    have := (hspec₂ c hc).2 0 h₀
    simpa using this

/-- C1: in every game produced by `new_game_nd` from in-bounds, pairwise
distinct mines, every mine coordinate holds the mine marker and every non-mine
cell's board value is the number of that cell's neighbor coordinates that are
mines. -/
theorem C1_new_game_counts {dims : List Int} {mines : List (List Int)}
    (hd : dims ≠ []) (hm : ∀ m ∈ mines, Canonical dims m) (hnd : mines.Nodup) :
    ∃ g, new_game_nd dims mines = some g ∧
      (∀ c, Canonical dims c → c ∈ mines →
        slice_array g.board c = some (ND.cell Cell.mine)) ∧
      (∀ c, Canonical dims c → c ∉ mines →
        slice_array g.board c = some (ND.cell (Cell.num
          ((recursive_helper c dims.length dims).filter (· ∈ mines)).card))) := by
  have hN : 1 ≤ dims.length := by
    cases dims with
    | nil => exact absurd rfl hd
    | cons d ds => simp
  obtain ⟨g, hng, _, _, _, _, _, _, hmine, hsafe⟩ := new_game_spec hd hm
  refine ⟨g, hng, hmine, ?_⟩
  intro c hc hcm
  rw [hsafe c hc hcm]
  have hcount : (mines.countP fun m =>
        decide (c ∈ recursive_helper m dims.length dims))
      = ((recursive_helper c dims.length dims).filter (· ∈ mines)).card := by
    have hstep : (mines.countP fun m =>
          decide (c ∈ recursive_helper m dims.length dims))
        = (mines.countP fun m =>
          decide (m ∈ recursive_helper c dims.length dims)) :=
      List.countP_congr fun m hmm => by
        simpa using mem_rh_symm (hm m hmm) hc hN
    rw [hstep, List.countP_eq_length_filter,
      ← List.toFinset_card_of_nodup (hnd.filter _), List.toFinset_filter]
    have hfe : mines.toFinset.filter
          (fun m => decide (m ∈ recursive_helper c dims.length dims) = true)
        = mines.toFinset ∩ recursive_helper c dims.length dims := by
      ext m
      simp [Finset.mem_filter, Finset.mem_inter]
    rw [hfe, Finset.inter_comm, ← Finset.filter_mem_eq_inter]
    congr 1
    ext m
    simp
  rw [hcount]

/-- Witness for C1 on the 2x4 board from the repository's doctest. -/
theorem C1_new_game_counts_witness :
    ∃ g, new_game_nd [2, 4] [[0, 0], [1, 0], [1, 1]] = some g ∧
      (∀ c, Canonical [2, 4] c → c ∈ [[0, 0], [1, 0], [1, 1]] →
        slice_array g.board c = some (ND.cell Cell.mine)) ∧
      (∀ c, Canonical [2, 4] c → c ∉ ([[0, 0], [1, 0], [1, 1]] : List (List Int)) →
        slice_array g.board c = some (ND.cell (Cell.num
          ((recursive_helper c ([2, 4] : List Int).length [2, 4]).filter
            (· ∈ ([[0, 0], [1, 0], [1, 1]] : List (List Int)))).card))) :=
  C1_new_game_counts (by decide) (by decide) (by decide)

/-! ### Digging -/

/-- C5: in a terminal state (`defeat` or `victory`) a dig returns 0 and leaves
the whole game — board, visibility mask and state — unchanged. -/
theorem C5_terminal_absorption {g : Game} (c : List Int)
    (h : g.state = GState.defeat ∨ g.state = GState.victory) :
    dig_nd g c = some (0, g) := by
  rw [dig_nd, if_pos h]

/-- Witness for C5 on a defeated 1x1 game. -/
theorem C5_terminal_absorption_witness :
    dig_nd {
      dimensions := [1], board := ND.arr [ND.cell Cell.mine],
             visible := ND.arr [ND.cell true], state := GState.defeat } [0]
      = some (0, {
        dimensions := [1], board := ND.arr [ND.cell Cell.mine],
                   visible := ND.arr [ND.cell true], state := GState.defeat }) :=
  C5_terminal_absorption [0] (Or.inl rfl)

/-- C3: digging a mine in an ongoing game reveals exactly that coordinate,
sets the state to `defeat`, and returns 1; board and dimensions are untouched
and every other visibility entry is unchanged. -/
theorem C3_mine_dig {g : Game} {c : List Int}
    (hshv : Shaped g.dimensions g.visible)
    (hst : g.state = GState.ongoing) (hc : Canonical g.dimensions c)
    (hd : g.dimensions ≠ [])
    (hmine : slice_array g.board c = some (ND.cell Cell.mine)) :
    ∃ vis₂, dig_nd g c = some (1, { g with visible := vis₂, state := GState.defeat }) ∧
      slice_array vis₂ c = some (ND.cell true) ∧
      ∀ c₂, Canonical g.dimensions c₂ → c₂ ≠ c →
        slice_array vis₂ c₂ = slice_array g.visible c₂ := by
  obtain ⟨vis₂, hupd, _, hget, hfr⟩ :=
    update_shaped hshv hc (canonical_ne_nil hc hd) true
  refine ⟨vis₂, ?_, hget, hfr⟩
  rw [dig_nd, if_neg (by simp [hst])]
  simp [hmine, hupd]

/-- Witness for C3: digging the mine at (0,0) of the doctest board. -/
theorem C3_mine_dig_witness :
    ∃ vis₂,
      dig_nd {
      dimensions := [2, 4],
               board := ND.arr [ND.arr [ND.cell Cell.mine, ND.cell (Cell.num 3),
                                        ND.cell (Cell.num 1), ND.cell (Cell.num 0)],
                                ND.arr [ND.cell Cell.mine, ND.cell Cell.mine,
                                        ND.cell (Cell.num 1), ND.cell (Cell.num 0)]],
               visible := generate_nested_list_false [2, 4],
               state := GState.ongoing } [0, 0]
        = some (1, {
        dimensions := [2, 4],
               board := ND.arr [ND.arr [ND.cell Cell.mine, ND.cell (Cell.num 3),
                                        ND.cell (Cell.num 1), ND.cell (Cell.num 0)],
                                ND.arr [ND.cell Cell.mine, ND.cell Cell.mine,
                                        ND.cell (Cell.num 1), ND.cell (Cell.num 0)]],
               visible := vis₂, state := GState.defeat }) ∧
      slice_array vis₂ [0, 0] = some (ND.cell true) ∧
      ∀ c₂, Canonical [2, 4] c₂ → c₂ ≠ [0, 0] →
        slice_array vis₂ c₂ =
          slice_array (generate_nested_list_false [2, 4]) c₂ :=
  C3_mine_dig (genNested_shaped false [2, 4] (by decide)) rfl (by decide)
    (by decide) rfl

/-! ### Out-of-range coordinates -/

/-- Looking up a coordinate of matching rank with nonnegative components, one of
which reaches its axis extent, raises (Python `IndexError`). -/
theorem slice_array_too_big {α : Type} :
    ∀ {c dims : List Int} {a : ND α}, Shaped dims a →
      c.length = dims.length → (∀ x ∈ c, 0 ≤ x) →
      (∃ k, k < dims.length ∧ dims.getD k 0 ≤ c.getD k 0) →
      slice_array a c = none := by
  intro c
  induction c with
  | nil =>
    intro dims a _ hlen _ hbig
    obtain ⟨k, hk, _⟩ := hbig
    rw [← hlen] at hk
    simp at hk
  | cons x cs ih =>
    intro dims a ha hlen hpos hbig
    cases dims with
    | nil => simp at hlen
    | cons d ds =>
      cases ha with
      | arr hlenl hmem =>
        rename_i l
        have hx0 : 0 ≤ x := hpos x (List.mem_cons_self x cs)
        by_cases hx : x < d
        · have hres : pyResolve l.length x = some x.toNat :=
            pyResolve_of_canonical hx0 (by omega)
          have hidx : x.toNat < l.length := by omega
          have hsub : l[x.toNat]? = some (l.get ⟨x.toNat, hidx⟩) := by
            rw [List.getElem?_eq_getElem hidx]
            simp [List.get_eq_getElem]
          have hbad₂ : ∃ k, k < ds.length ∧ ds.getD k 0 ≤ cs.getD k 0 := by
            obtain ⟨k, hk, hge⟩ := hbig
            cases k with
            | zero => simp at hge; omega
            | succ k =>
              refine ⟨k, by simpa using hk, ?_⟩
              simpa using hge
          have := ih (hmem _ (List.get_mem l x.toNat hidx)) (by simpa using hlen)
            (fun y hy => hpos y (List.mem_cons_of_mem x hy)) hbad₂
          simp only [slice_array, hres, Option.some_bind, List.get?_eq_getElem?, hsub]
          exact this
        · have hres : pyResolve l.length x = none := by
            rw [pyResolve, if_neg (by omega), if_neg (by omega)]
          simp [slice_array, hres]

/-- Updating at a coordinate of matching rank with nonnegative components, one
of which reaches its axis extent, raises. -/
theorem update_too_big {α : Type} :
    ∀ {c dims : List Int} {a : ND α} (v : ND α), Shaped dims a →
      c.length = dims.length → (∀ x ∈ c, 0 ≤ x) →
      (∃ k, k < dims.length ∧ dims.getD k 0 ≤ c.getD k 0) →
      slice_and_update_array a c v = none := by
  intro c
  induction c with
  | nil =>
    intro dims a _ _ hlen _ hbig
    obtain ⟨k, hk, _⟩ := hbig
    rw [← hlen] at hk
    simp at hk
  | cons x cs ih =>
    intro dims a v ha hlen hpos hbig
    cases dims with
    | nil => simp at hlen
    | cons d ds =>
      cases ha with
      | arr hlenl hmem =>
        rename_i l
        have hx0 : 0 ≤ x := hpos x (List.mem_cons_self x cs)
        cases cs with
        | nil =>
          have h₂ : ds = [] := by simpa using hlen.symm
          subst h₂
          obtain ⟨k, hk, hge⟩ := hbig
          have hk0 : k = 0 := by
            simp at hk
            omega
          subst hk0
          simp only [List.getD_cons_zero] at hge
          have hres : pyResolve l.length x = none := by
            rw [pyResolve, if_neg (by omega), if_neg (by omega)]
          simp [slice_and_update_array, hres]
        | cons c₁ ctail =>
          by_cases hx : x < d
          · have hres : pyResolve l.length x = some x.toNat :=
              pyResolve_of_canonical hx0 (by omega)
            have hidx : x.toNat < l.length := by omega
            have hsub : l.get? x.toNat = some (l.get ⟨x.toNat, hidx⟩) :=
              List.get?_eq_get hidx
            have hbad₂ : ∃ k, k < ds.length ∧
                ds.getD k 0 ≤ (c₁ :: ctail).getD k 0 := by
              obtain ⟨k, hk, hge⟩ := hbig
              cases k with
              | zero => simp at hge; omega
              | succ k =>
                refine ⟨k, by simpa using hk, ?_⟩
                simpa using hge
            have hrec := ih v (hmem _ (List.get_mem l x.toNat hidx))
              (by simpa using hlen)
              (fun y hy => hpos y (List.mem_cons_of_mem x hy)) hbad₂
            simp only [slice_and_update_array, hres, hsub, hrec]
          · have hres : pyResolve l.length x = none := by
              rw [pyResolve, if_neg (by omega), if_neg (by omega)]
            simp [slice_and_update_array, hres]

/-- Looking up a coordinate with more components than the board has dimensions
raises (the lookup reaches a scalar and indexes into it). -/
theorem slice_long_rank {α : Type} :
    ∀ {c dims : List Int} {a : ND α}, Shaped dims a →
      dims.length < c.length → slice_array a c = none := by
  intro c
  induction c with
  | nil =>
    intro dims a _ hlen
    simp at hlen
  | cons x cs ih =>
    intro dims a ha hlen
    cases ha with
    | cell v => rfl
    | arr hlenl hmem =>
      rename_i d ds l
      show (match (pyResolve l.length x).bind l.get? with
        | none => none
        | some sub => slice_array sub cs) = none
      cases hres : (pyResolve l.length x).bind l.get? with
      | none => rfl
      | some sub =>
        have hsub : sub ∈ l := by
          rcases Option.bind_eq_some.mp hres with ⟨k, hk, hget⟩
          exact List.get?_mem hget
        have hlt : ds.length < cs.length := by simpa using hlen
        show slice_array sub cs = none
        exact ih (hmem sub hsub) hlt

/-- Updating at a coordinate with more components than the board has dimensions
raises. -/
theorem update_long_rank {α : Type} :
    ∀ {c dims : List Int} {a : ND α} (v : ND α), Shaped dims a →
      dims.length < c.length → slice_and_update_array a c v = none := by
  intro c
  induction c with
  | nil =>
    intro dims a v _ _
    cases a with
    | cell w => rfl
    | arr l => rfl
  | cons x cs ih =>
    intro dims a v ha hlen
    cases ha with
    | cell w => rfl
    | arr hlenl hmem =>
      rename_i d ds l
      cases cs with
      | nil =>
        exfalso
        simp at hlen
      | cons c₁ ct =>
        have hlt : ds.length < (c₁ :: ct).length := by simpa using hlen
        show (match pyResolve l.length x with
          | none => none
          | some k =>
            match l.get? k with
            | none => none
            | some sub =>
              match slice_and_update_array sub (c₁ :: ct) v with
              | none => none
              | some sub₂ => some (ND.arr (l.set k sub₂))) = none
        cases hres : pyResolve l.length x with
        | none => rfl
        | some k =>
          show (match l.get? k with
            | none => none
            | some sub =>
              match slice_and_update_array sub (c₁ :: ct) v with
              | none => none
              | some sub₂ => some (ND.arr (l.set k sub₂))) = none
          cases hget : l.get? k with
          | none => rfl
          | some sub =>
            show (match slice_and_update_array sub (c₁ :: ct) v with
              | none => none
              | some sub₂ => some (ND.arr (l.set k sub₂))) = none
            rw [ih v (hmem sub (List.get?_mem hget)) hlt]

/-- The mine-placement fold raises as soon as it reaches a mine with more
components than the board has dimensions, the earlier mines being in bounds. -/
theorem placeMines_long {dims : List Int} (hd : dims ≠ []) :
    ∀ (mines : List (List Int)) (b : ND Cell), Shaped dims b →
      (∀ mn ∈ mines, Canonical dims mn ∨ dims.length < mn.length) →
      (∃ mn ∈ mines, dims.length < mn.length) →
      mines.foldlM
        (fun b mn => slice_and_update_array b mn (ND.cell Cell.mine)) b = none := by
  intro mines
  induction mines with
  | nil =>
    intro b _ _ hbad
    obtain ⟨mn, hmn, _⟩ := hbad
    exact absurd hmn (List.not_mem_nil mn)
  | cons mn ms ih =>
    intro b hb hmix hbad
    rcases hmix mn (List.mem_cons_self mn ms) with hcan | hlong
    · obtain ⟨b₁, hupd, hsh₁, _, _⟩ :=
        update_shaped hb hcan (canonical_ne_nil hcan hd) Cell.mine
      have hbad₂ : ∃ mn₂ ∈ ms, dims.length < mn₂.length := by
        obtain ⟨mn₂, hmem, hlen⟩ := hbad
        rcases List.mem_cons.mp hmem with rfl | hmem₂
        · have hce := hcan.length
          omega
        · exact ⟨mn₂, hmem₂, hlen⟩
      have := ih b₁ hsh₁ (fun y hy => hmix y (List.mem_cons_of_mem mn hy)) hbad₂
      rw [List.foldlM_cons, hupd]
      simpa using this
    · have hupd : slice_and_update_array b mn (ND.cell Cell.mine) = none :=
        update_long_rank _ hb hlong
      rw [List.foldlM_cons, hupd]
      rfl

/-- C6 (amended): in an ongoing game over a well-shaped board, a dig
coordinate of matching rank whose components are nonnegative but one of which
is at least its axis extent raises an error (Python `IndexError`), modelled as
`none`; and a dig coordinate with more components than the board has
dimensions likewise raises.  (A negative component within wrap range, and a
coordinate with fewer components than the board has dimensions, are instead
silently accepted — see the counterexample.) -/
theorem C6_dig_out_of_range {g : Game} {c : List Int}
    (hsh : Shaped g.dimensions g.board) (hst : g.state = GState.ongoing) :
    (c.length = g.dimensions.length → (∀ x ∈ c, 0 ≤ x) →
      (∃ k, k < g.dimensions.length ∧ g.dimensions.getD k 0 ≤ c.getD k 0) →
      dig_nd g c = none) ∧
    (g.dimensions.length < c.length → dig_nd g c = none) := by
  constructor
  · intro hlen hpos hbig
    rw [dig_nd, if_neg (by simp [hst])]
    rw [slice_array_too_big hsh hlen hpos hbig]
  · intro hlong
    rw [dig_nd, if_neg (by simp [hst])]
    rw [slice_long_rank hsh hlong]

/-- Witness for the amended C6: on an empty 2x4 board, digging (0,9)
(a component past its extent) and digging (0,0,0) (rank 3 on a 2-D board)
both raise. -/
theorem C6_dig_out_of_range_witness :
    dig_nd { dimensions := [2, 4], board := generate_nested_list [2, 4],
             visible := generate_nested_list_false [2, 4],
             state := GState.ongoing } [0, 9] = none ∧
    dig_nd { dimensions := [2, 4], board := generate_nested_list [2, 4],
             visible := generate_nested_list_false [2, 4],
             state := GState.ongoing } [0, 0, 0] = none :=
  ⟨(C6_dig_out_of_range (genNested_shaped (Cell.num 0) [2, 4] (by decide))
      rfl).1 rfl (by decide) ⟨1, by decide, by decide⟩,
   (C6_dig_out_of_range (genNested_shaped (Cell.num 0) [2, 4] (by decide))
      rfl).2 (by decide)⟩

/-- Counterexample to C6 as stated: on the 2x4 doctest board the dig coordinate
(0,-1) has a component outside `[0,4)`, yet the call does not report an error —
it silently reveals 4 cells (Python's negative-index wrap-around).  And the
rank-1 dig coordinate (0,) on the same 2-D board is no error either but a
silent no-op: it returns 0 and leaves the game unchanged, because the
list-valued lookups fall through every scalar comparison in `dig_nd`. -/
theorem C6_counterexample :
    ((new_game_nd [2, 4] [[0, 0], [1, 0], [1, 1]]).bind
        fun g => dig_nd g [0, -1]).map (fun p => (p.1, p.2.state)) =
      some (4, GState.ongoing) ∧
    ((new_game_nd [2, 4] [[0, 0], [1, 0], [1, 1]]).bind
        fun g => dig_nd g [0]) =
      (new_game_nd [2, 4] [[0, 0], [1, 0], [1, 1]]).map (fun g => (0, g)) :=
  ⟨rfl, rfl⟩

/-- The mine-placement fold raises as soon as it reaches a mine with a
too-large component. -/
theorem placeMines_bad {dims : List Int} (hd : dims ≠ []) :
    ∀ (mines : List (List Int)) (b : ND Cell), Shaped dims b →
      (∀ mn ∈ mines, mn.length = dims.length ∧ ∀ x ∈ mn, 0 ≤ x) →
      (∃ mn ∈ mines, ∃ k, k < dims.length ∧ dims.getD k 0 ≤ mn.getD k 0) →
      mines.foldlM
        (fun b mn => slice_and_update_array b mn (ND.cell Cell.mine)) b = none := by
  intro mines
  induction mines with
  | nil =>
    intro b _ _ hbad
    obtain ⟨mn, hmn, _⟩ := hbad
    exact absurd hmn (List.not_mem_nil mn)
  | cons mn ms ih =>
    intro b hb hrank hbad
    by_cases hcan : Canonical dims mn
    · obtain ⟨b₁, hupd, hsh₁, _, _⟩ :=
        update_shaped hb hcan (canonical_ne_nil hcan hd) Cell.mine
      have hbad₂ : ∃ mn₂ ∈ ms, ∃ k, k < dims.length ∧
          dims.getD k 0 ≤ mn₂.getD k 0 := by
        obtain ⟨mn₂, hmem, k, hk, hge⟩ := hbad
        rcases List.mem_cons.mp hmem with rfl | hmem₂
        · obtain ⟨_, hcomp⟩ := canonical_iff_getD.mp hcan
          have := (hcomp k hk).2
          omega
        · exact ⟨mn₂, hmem₂, k, hk, hge⟩
      have := ih b₁ hsh₁ (fun y hy => hrank y (List.mem_cons_of_mem mn hy)) hbad₂
      rw [List.foldlM_cons, hupd]
      simpa using this
    · have hbadmn : ∃ k, k < dims.length ∧ dims.getD k 0 ≤ mn.getD k 0 := by
        obtain ⟨hlen, hpos⟩ := hrank mn (List.mem_cons_self mn ms)
        by_contra hcon
        push_neg at hcon
        refine hcan (canonical_iff_getD.mpr ⟨hlen, ?_⟩)
        intro k hk
        refine ⟨?_, hcon k hk⟩
        by_cases hkc : k < mn.length
        · have hval : mn.getD k 0 = mn.get ⟨k, hkc⟩ := by
            simp [List.getD_eq_getElem?_getD, List.getElem?_eq_getElem hkc,
              List.get_eq_getElem]
          rw [hval]
          exact hpos _ (List.get_mem mn k hkc)
        · rw [List.getD_eq_getElem?_getD, List.getElem?_eq_none (by omega)]
          simp
      have hupd : slice_and_update_array b mn (ND.cell Cell.mine) = none :=
        update_too_big _ hb (hrank mn (List.mem_cons_self mn ms)).1
          (hrank mn (List.mem_cons_self mn ms)).2 hbadmn
      rw [List.foldlM_cons, hupd]
      rfl

/-- C7 (amended): `new_game_nd` raises when some mine coordinate has matching
rank and nonnegative components but a component at least its axis extent; it
also raises when some mine has more components than there are dimensions (the
other mines being in bounds), and on a mine with fewer components than there
are dimensions, shown here at representative boards (Python hits an
`IndexError` enumerating such a mine's neighbors).  (Duplicate mines and
negative components within wrap range are instead silently accepted — see the
counterexample.) -/
theorem C7_new_game_invalid {dims : List Int} {mines : List (List Int)}
    (hd : dims ≠ []) :
    ((∀ mn ∈ mines, mn.length = dims.length ∧ ∀ x ∈ mn, 0 ≤ x) →
      (∃ mn ∈ mines, ∃ k, k < dims.length ∧ dims.getD k 0 ≤ mn.getD k 0) →
      new_game_nd dims mines = none) ∧
    ((∀ mn ∈ mines, Canonical dims mn ∨ dims.length < mn.length) →
      (∃ mn ∈ mines, dims.length < mn.length) →
      new_game_nd dims mines = none) ∧
    new_game_nd [2, 2] [[0]] = none ∧
    new_game_nd [3] [([] : List Int)] = none := by
  refine ⟨?_, ?_, rfl, rfl⟩
  · intro hrank hbad
    have hfold := placeMines_bad hd mines (generate_nested_list dims)
      (genNested_shaped (Cell.num 0) dims hd) hrank hbad
    simp [new_game_nd, hfold]
  · intro hmix hbad
    have hfold := placeMines_long hd mines (generate_nested_list dims)
      (genNested_shaped (Cell.num 0) dims hd) hmix hbad
    simp [new_game_nd, hfold]

/-- Witness for the amended C7: a single mine at (0,9) (component past its
axis extent) is rejected, and so is a mine list holding the in-bounds (0,0)
and the rank-3 mine (0,0,0) on a 2-D board. -/
theorem C7_new_game_invalid_witness :
    new_game_nd [2, 4] [[0, 9]] = none ∧
    new_game_nd [2, 4] [[0, 0], [0, 0, 0]] = none :=
  ⟨(C7_new_game_invalid (by decide)).1 (by decide)
      ⟨[0, 9], by decide, 1, by decide, by decide⟩,
   (C7_new_game_invalid (by decide)).2.1 (by decide)
      ⟨[0, 0, 0], by decide, by decide⟩⟩

/-- Counterexample to C7 as stated: duplicate mines at (0,0) are silently
accepted — `new_game_nd` returns a game whose neighbor counts are all inflated
to 2 by the duplicate — and the mine (-1,-1), out of bounds as written, is
also silently accepted, landing at the wrapped position (1,1). -/
theorem C7_counterexample :
    (new_game_nd [2, 2] [[0, 0], [0, 0]]).map (fun g => g.board) =
      some (ND.arr [ND.arr [ND.cell Cell.mine, ND.cell (Cell.num 2)],
                    ND.arr [ND.cell (Cell.num 2), ND.cell (Cell.num 2)]]) ∧
    (new_game_nd [2, 2] [[-1, -1]]).map (fun g => g.board) =
      some (ND.arr [ND.arr [ND.cell (Cell.num 1), ND.cell (Cell.num 1)],
                    ND.arr [ND.cell (Cell.num 1), ND.cell Cell.mine]]) :=
  ⟨rfl, rfl⟩

/-! ### Rendering -/

/-- Writing one symbol per enumerated coordinate: after the fold, every listed
canonical coordinate holds its symbol and every other canonical coordinate is
untouched. -/
theorem renderFold_spec {dims : List Int} (hd : dims ≠ [])
    (f : List Int → Option String)
    (step : ND String → List Int → Option (ND String))
    (hstep : ∀ nb i, step nb i = match f i with
      | none => none
      | some s => slice_and_update_array nb i (ND.cell s)) :
    ∀ (coords : List (List Int)), (∀ c ∈ coords, Canonical dims c) →
      (∀ c ∈ coords, (f c).isSome) →
      ∀ (nb : ND String), Shaped dims nb →
      ∃ nb₂, coords.foldlM step nb = some nb₂ ∧ Shaped dims nb₂ ∧
        (∀ c, Canonical dims c → c ∈ coords → coords.Nodup →
          slice_array nb₂ c = (f c).map ND.cell) ∧
        (∀ c, Canonical dims c → c ∉ coords →
          slice_array nb₂ c = slice_array nb c) := by
  intro coords
  induction coords with
  | nil =>
    intro _ _ nb hnb
    exact ⟨nb, rfl, hnb, fun c _ h => absurd h (List.not_mem_nil c),
      fun _ _ _ => rfl⟩
  | cons i rest ih =>
    intro hcan hsome nb hnb
    have hican : Canonical dims i := hcan i (List.mem_cons_self i rest)
    obtain ⟨s, hs⟩ := Option.isSome_iff_exists.mp (hsome i (List.mem_cons_self i rest))
    obtain ⟨nb₁, hupd, hsh₁, hget₁, hfr₁⟩ :=
      update_shaped hnb hican (canonical_ne_nil hican hd) s
    obtain ⟨nb₂, hfold, hsh₂, hmem₂, hfr₂⟩ :=
      ih (fun c hc => hcan c (List.mem_cons_of_mem i hc))
        (fun c hc => hsome c (List.mem_cons_of_mem i hc)) nb₁ hsh₁
    have hstep₁ : step nb i = some nb₁ := by
      rw [hstep, hs]
      exact hupd
    refine ⟨nb₂, ?_, hsh₂, ?_, ?_⟩
    · rw [List.foldlM_cons, hstep₁]
      simpa using hfold
    · intro c hc hcm hnd
      rcases List.mem_cons.mp hcm with rfl | hcm₂
      · have hci : c ∉ rest := (List.nodup_cons.mp hnd).1
        rw [hfr₂ c hc hci, hget₁, hs]
        rfl
      · exact hmem₂ c hc hcm₂ (List.nodup_cons.mp hnd).2
    · intro c hc hcm
      have hne : c ≠ i := fun h => hcm (h ▸ List.mem_cons_self i rest)
      have hcr : c ∉ rest := fun h => hcm (List.mem_cons_of_mem i h)
      rw [hfr₂ c hc hcr]
      exact hfr₁ c hc hne

/-- C9: `render_nd` produces, at every cell, `"_"` when the cell is hidden and
`reveal_all` is false, `"."` for a shown mine, `" "` for a shown empty cell and
the decimal string of the count for a shown positive count; with `reveal_all`
true the visibility mask is ignored.  The embedding is functional, so the game
itself is untouched by construction.  The two doctest-board examples of the
claim are included. -/
theorem C9_render {g : Game} (b : Bool)
    (hshb : Shaped g.dimensions g.board) (hshv : Shaped g.dimensions g.visible)
    (hd : g.dimensions ≠ []) :
    (∃ r, render_nd g b = some r ∧ Shaped g.dimensions r ∧
      ∀ c, Canonical g.dimensions c → ∀ v vis,
        slice_array g.board c = some (ND.cell v) →
        slice_array g.visible c = some (ND.cell vis) →
        slice_array r c = some (ND.cell
          (if vis = true ∨ b = true then
            match v with
            | Cell.mine => "."
            | Cell.num 0 => " "
            | Cell.num (k + 1) => toString (k + 1)
          else "_"))) ∧
    render_nd {
      dimensions := [2, 4],
      board := ND.arr [ND.arr [ND.cell Cell.mine, ND.cell (Cell.num 3),
                               ND.cell (Cell.num 1), ND.cell (Cell.num 0)],
                       ND.arr [ND.cell Cell.mine, ND.cell Cell.mine,
                               ND.cell (Cell.num 1), ND.cell (Cell.num 0)]],
      visible := ND.arr [ND.arr [ND.cell true, ND.cell true,
                                 ND.cell true, ND.cell false],
                         ND.arr [ND.cell false, ND.cell false,
                                 ND.cell true, ND.cell false]],
      state := GState.ongoing } false
      = some (ND.arr [ND.arr [ND.cell ".", ND.cell "3", ND.cell "1", ND.cell "_"],
                      ND.arr [ND.cell "_", ND.cell "_", ND.cell "1", ND.cell "_"]]) ∧
    render_nd {
      dimensions := [2, 4],
      board := ND.arr [ND.arr [ND.cell Cell.mine, ND.cell (Cell.num 3),
                               ND.cell (Cell.num 1), ND.cell (Cell.num 0)],
                       ND.arr [ND.cell Cell.mine, ND.cell Cell.mine,
                               ND.cell (Cell.num 1), ND.cell (Cell.num 0)]],
      visible := ND.arr [ND.arr [ND.cell true, ND.cell true,
                                 ND.cell true, ND.cell false],
                         ND.arr [ND.cell false, ND.cell false,
                                 ND.cell true, ND.cell false]],
      state := GState.ongoing } true
      = some (ND.arr [ND.arr [ND.cell ".", ND.cell "3", ND.cell "1", ND.cell " "],
                      ND.arr [ND.cell ".", ND.cell ".", ND.cell "1", ND.cell " "]]) := by
  refine ⟨?_, rfl, rfl⟩
  have hcoords : ∀ c ∈ generate_coordinates g.dimensions, Canonical g.dimensions c :=
    fun c hc => mem_generate_coordinates.mp hc
  cases b with
  | true =>
    have hstep : ∀ (nb : ND String) (i : List Int),
        (match slice_array g.board i with
         | none => none
         | some ib =>
           match renderSymbol ib with
           | none => none
           | some s => slice_and_update_array nb i (ND.cell s)) =
        (match (slice_array g.board i).bind renderSymbol with
         | none => none
         | some s => slice_and_update_array nb i (ND.cell s)) := by
      intro nb i
      cases slice_array g.board i with
      | none => rfl
      | some ib =>
        cases renderSymbol ib with
        | none => rfl
        | some s => rfl
    have hsome : ∀ c ∈ generate_coordinates g.dimensions,
        ((slice_array g.board c).bind renderSymbol).isSome := by
      intro c hc
      obtain ⟨v, hv⟩ := slice_array_shaped hshb (hcoords c hc)
      rw [hv]
      cases v with
      | mine => rfl
      | num k => cases k <;> rfl
    obtain ⟨nb₂, hfold, hsh₂, hval, _⟩ :=
      renderFold_spec hd (fun i => (slice_array g.board i).bind renderSymbol)
        _ hstep (generate_coordinates g.dimensions) hcoords hsome
        (genNested "0" g.dimensions) (genNested_shaped "0" g.dimensions hd)
    refine ⟨nb₂, ?_, hsh₂, ?_⟩
    · simpa [render_nd] using hfold
    · intro c hc v vis hv _
      rw [hval c hc (mem_generate_coordinates.mpr hc)
        (nodup_generate_coordinates g.dimensions)]
      rw [hv, if_pos (Or.inr rfl)]
      cases v with
      | mine => rfl
      | num k => cases k <;> rfl
  | false =>
    have hstep : ∀ (nb : ND String) (i : List Int),
        (match slice_array g.visible i with
         | none => none
         | some (ND.cell true) =>
           match slice_array g.board i with
           | none => none
           | some ib =>
             match renderSymbol ib with
             | none => none
             | some s => slice_and_update_array nb i (ND.cell s)
         | some _ => slice_and_update_array nb i (ND.cell "_")) =
        (match (match slice_array g.visible i with
                | none => none
                | some (ND.cell true) => (slice_array g.board i).bind renderSymbol
                | some _ => some "_") with
         | none => none
         | some s => slice_and_update_array nb i (ND.cell s)) := by
      intro nb i
      cases hiv : slice_array g.visible i with
      | none => rfl
      | some iv =>
        cases iv with
        | cell bv =>
          cases bv with
          | true =>
            cases slice_array g.board i with
            | none => rfl
            | some ib =>
              cases renderSymbol ib with
              | none => rfl
              | some s => rfl
          | false => rfl
        | arr l => rfl
    have hsome : ∀ c ∈ generate_coordinates g.dimensions,
        (match slice_array g.visible c with
         | none => none
         | some (ND.cell true) => (slice_array g.board c).bind renderSymbol
         | some _ => some "_").isSome := by
      intro c hc
      obtain ⟨vis, hvis⟩ := slice_array_shaped hshv (hcoords c hc)
      obtain ⟨v, hv⟩ := slice_array_shaped hshb (hcoords c hc)
      rw [hvis]
      cases vis with
      | true =>
        rw [hv]
        cases v with
        | mine => rfl
        | num k => cases k <;> rfl
      | false => rfl
    obtain ⟨nb₂, hfold, hsh₂, hval, _⟩ :=
      renderFold_spec hd
        (fun i =>
          match slice_array g.visible i with
          | none => none
          | some (ND.cell true) => (slice_array g.board i).bind renderSymbol
          | some _ => some "_")
        _ hstep (generate_coordinates g.dimensions) hcoords hsome
        (genNested "0" g.dimensions) (genNested_shaped "0" g.dimensions hd)
    refine ⟨nb₂, ?_, hsh₂, ?_⟩
    · simpa [render_nd] using hfold
    · intro c hc v vis hv hvis
      rw [hval c hc (mem_generate_coordinates.mpr hc)
        (nodup_generate_coordinates g.dimensions)]
      rw [hvis]
      cases vis with
      | true =>
        rw [if_pos (Or.inl rfl)]
        simp only [Option.map]
        rw [hv]
        cases v with
        | mine => rfl
        | num k => cases k <;> rfl
      | false =>
        rw [if_neg (by simp)]
        rfl

/-- Shape certificate for 2x4 literal boards. -/
theorem shaped_two_by_four {α : Type} (a b c d e f g h : α) :
    Shaped [2, 4] (ND.arr [ND.arr [ND.cell a, ND.cell b, ND.cell c, ND.cell d],
                           ND.arr [ND.cell e, ND.cell f, ND.cell g, ND.cell h]]) := by
  refine Shaped.arr rfl ?_
  intro x hx
  simp only [List.mem_cons, List.not_mem_nil, or_false] at hx
  rcases hx with rfl | rfl <;>
  · refine Shaped.arr rfl ?_
    intro y hy
    simp only [List.mem_cons, List.not_mem_nil, or_false] at hy
    rcases hy with rfl | rfl | rfl | rfl <;> exact Shaped.cell _

/-- Witness for C9: rendering the doctest board with the doctest mask. -/
theorem C9_render_witness :
    ∃ r, render_nd {
        dimensions := [2, 4],
        board := ND.arr [ND.arr [ND.cell Cell.mine, ND.cell (Cell.num 3),
                                 ND.cell (Cell.num 1), ND.cell (Cell.num 0)],
                         ND.arr [ND.cell Cell.mine, ND.cell Cell.mine,
                                 ND.cell (Cell.num 1), ND.cell (Cell.num 0)]],
        visible := ND.arr [ND.arr [ND.cell true, ND.cell true,
                                   ND.cell true, ND.cell false],
                           ND.arr [ND.cell false, ND.cell false,
                                   ND.cell true, ND.cell false]],
        state := GState.ongoing } false = some r ∧
      slice_array r [0, 0] = some (ND.cell ".") := by
  obtain ⟨⟨r, hr, _, hcell⟩, _, _⟩ :=
    @C9_render {
      dimensions := [2, 4],
      board := ND.arr [ND.arr [ND.cell Cell.mine, ND.cell (Cell.num 3),
                               ND.cell (Cell.num 1), ND.cell (Cell.num 0)],
                       ND.arr [ND.cell Cell.mine, ND.cell Cell.mine,
                               ND.cell (Cell.num 1), ND.cell (Cell.num 0)]],
      visible := ND.arr [ND.arr [ND.cell true, ND.cell true,
                                 ND.cell true, ND.cell false],
                         ND.arr [ND.cell false, ND.cell false,
                                 ND.cell true, ND.cell false]],
      state := GState.ongoing } false
      (shaped_two_by_four _ _ _ _ _ _ _ _) (shaped_two_by_four _ _ _ _ _ _ _ _)
      (by decide)
  refine ⟨r, hr, ?_⟩
  have h := hcell [0, 0] (by decide) Cell.mine true rfl rfl
  simpa using h

theorem rs_eq_flood {fuel : Nat} {g : Game} {c : List Int}
    {vis : Finset (List Int)}
    (hz : slice_array g.board c = some (ND.cell (Cell.num 0))) :
    revealed_squares (fuel + 1) g c vis =
      (sortFinset (recursive_helper c g.dimensions.length g.dimensions)).foldlM
        (rsStep fuel g) ([c], insert c vis) := by
  simp only [revealed_squares, hz]
  rfl

theorem rs_eq_stop {fuel : Nat} {g : Game} {c : List Int}
    {vis : Finset (List Int)} {v : ND Cell}
    (hv : slice_array g.board c = some v)
    (hnz : v ≠ ND.cell (Cell.num 0)) :
    revealed_squares (fuel + 1) g c vis = some ([c], insert c vis) := by
  cases v with
  | cell w =>
    cases w with
    | mine => simp only [revealed_squares, hv]
    | num k =>
      cases k with
      | zero => exact absurd rfl hnz
      | succ k => simp only [revealed_squares, hv]
  | arr l => simp only [revealed_squares, hv]

/-- The DFS only appends to the accumulated list, and the visited set it
returns is the input plus exactly the listed coordinates. -/
theorem rs_basic :
    ∀ (fuel : Nat) (g : Game) (c : List Int) (vis : Finset (List Int))
      (l : List (List Int)) (vis₂ : Finset (List Int)),
      revealed_squares fuel g c vis = some (l, vis₂) →
      (∃ rest, l = c :: rest) ∧ vis₂ = vis ∪ l.toFinset := by
  intro fuel
  induction fuel with
  | zero =>
    intro g c vis l vis₂ h
    exact Option.noConfusion h
  | succ fuel ih =>
    intro g c vis l vis₂ h
    have hfold : ∀ (ns : List (List Int)) (st res : List (List Int) × Finset (List Int)),
        ns.foldlM (rsStep fuel g) st = some res →
        ∃ extra, res.1 = st.1 ++ extra ∧ res.2 = st.2 ∪ extra.toFinset := by
      intro ns
      induction ns with
      | nil =>
        intro st res h₂
        simp only [List.foldlM_nil] at h₂
        cases h₂
        exact ⟨[], by simp, by simp⟩
      | cons nb rest ihn =>
        intro st res h₂
        rw [List.foldlM_cons] at h₂
        by_cases hnb : nb ∈ st.2
        · rw [rsStep, if_pos hnb] at h₂
          exact ihn st res h₂
        · rw [rsStep, if_neg hnb] at h₂
          cases hrs : revealed_squares fuel g nb st.2 with
          | none =>
            rw [hrs] at h₂
            exact Option.noConfusion h₂
          | some p =>
            obtain ⟨l', vis₂'⟩ := p
            rw [hrs] at h₂
            obtain ⟨⟨rest', rfl⟩, hvis'⟩ := ih g nb st.2 l' vis₂' hrs
            obtain ⟨extra₂, hacc, hvis₂⟩ := ihn _ res h₂
            refine ⟨(nb :: rest') ++ extra₂, ?_, ?_⟩
            · simp only at hacc
              rw [hacc, List.append_assoc]
            · simp only at hvis₂
              rw [hvis₂, hvis']
              ext x
              simp only [Finset.mem_union, Finset.mem_insert, List.toFinset_append,
                List.mem_toFinset, List.mem_cons]
              constructor
              · rintro ((rfl | (h₃ | h₃)) | h₃) <;> tauto
              · rintro (h₃ | ((h₃ | h₃) | h₃)) <;> tauto
    cases hslice : slice_array g.board c with
    | none =>
      simp only [revealed_squares, hslice] at h
      exact Option.noConfusion h
    | some v =>
      by_cases hv : v = ND.cell (Cell.num 0)
      · subst hv
        rw [rs_eq_flood hslice] at h
        obtain ⟨extra, hl, hvis⟩ := hfold _ _ _ h
        simp only at hl hvis
        refine ⟨⟨extra, by simpa using hl⟩, ?_⟩
        rw [hvis, hl]
        ext x
        simp only [Finset.mem_union, Finset.mem_insert, List.mem_toFinset,
          List.mem_cons, List.toFinset_append, List.mem_append,
          List.mem_singleton]
        constructor
        · rintro ((rfl | h₃) | h₃) <;> tauto
        · rintro (h₃ | (h₃ | h₃)) <;> tauto
      · rw [rs_eq_stop hslice hv] at h
        cases h
        exact ⟨⟨[], rfl⟩, by ext x; simp [or_comm]⟩

/-- Standalone version of the neighbor-fold accumulation property. -/
theorem rsFold_basic (fuel : Nat) (g : Game) :
    ∀ (ns : List (List Int)) (st res : List (List Int) × Finset (List Int)),
      ns.foldlM (rsStep fuel g) st = some res →
      ∃ extra, res.1 = st.1 ++ extra ∧ res.2 = st.2 ∪ extra.toFinset := by
  intro ns
  induction ns with
  | nil =>
    intro st res h
    simp only [List.foldlM_nil] at h
    cases h
    exact ⟨[], by simp, by simp⟩
  | cons nb rest ihn =>
    intro st res h
    rw [List.foldlM_cons] at h
    by_cases hnb : nb ∈ st.2
    · rw [rsStep, if_pos hnb] at h
      exact ihn st res h
    · rw [rsStep, if_neg hnb] at h
      cases hrs : revealed_squares fuel g nb st.2 with
      | none =>
        rw [hrs] at h
        exact Option.noConfusion h
      | some p =>
        obtain ⟨l', vis₂'⟩ := p
        rw [hrs] at h
        obtain ⟨⟨rest', rfl⟩, hvis'⟩ := rs_basic fuel g nb st.2 l' vis₂' hrs
        obtain ⟨extra₂, hacc, hvis₂⟩ := ihn _ res h
        refine ⟨(nb :: rest') ++ extra₂, ?_, ?_⟩
        · simp only at hacc
          rw [hacc, List.append_assoc]
        · simp only at hvis₂
          rw [hvis₂, hvis']
          ext x
          simp only [Finset.mem_union, Finset.mem_insert, List.toFinset_append,
            List.mem_toFinset, List.mem_cons]
          constructor
          · rintro ((rfl | (h₃ | h₃)) | h₃) <;> tauto
          · rintro (h₃ | ((h₃ | h₃) | h₃)) <;> tauto

/-- Soundness: every coordinate the DFS lists is reachable from the start
through zero-cells. -/
theorem rs_sound :
    ∀ (fuel : Nat) (g : Game) (c : List Int) (vis : Finset (List Int))
      (l : List (List Int)) (vis₂ : Finset (List Int)),
      revealed_squares fuel g c vis = some (l, vis₂) → ∀ x ∈ l, Reach g c x := by
  intro fuel
  induction fuel with
  | zero =>
    intro g c vis l vis₂ h
    exact Option.noConfusion h
  | succ fuel ih =>
    intro g c vis l vis₂ h
    have hfold : ∀ (ns : List (List Int)) (st res : List (List Int) × Finset (List Int)),
        ns.foldlM (rsStep fuel g) st = some res →
        ∀ x ∈ res.1, x ∈ st.1 ∨ ∃ nb ∈ ns, Reach g nb x := by
      intro ns
      induction ns with
      | nil =>
        intro st res h₂ x hx
        simp only [List.foldlM_nil] at h₂
        cases h₂
        exact Or.inl hx
      | cons nb rest ihn =>
        intro st res h₂ x hx
        rw [List.foldlM_cons] at h₂
        by_cases hnb : nb ∈ st.2
        · rw [rsStep, if_pos hnb] at h₂
          rcases ihn st res h₂ x hx with h₃ | ⟨nb₂, hnb₂, hr⟩
          · exact Or.inl h₃
          · exact Or.inr ⟨nb₂, List.mem_cons_of_mem nb hnb₂, hr⟩
        · rw [rsStep, if_neg hnb] at h₂
          cases hrs : revealed_squares fuel g nb st.2 with
          | none =>
            rw [hrs] at h₂
            exact Option.noConfusion h₂
          | some p =>
            obtain ⟨l', vis₂'⟩ := p
            rw [hrs] at h₂
            rcases ihn _ res h₂ x hx with h₃ | ⟨nb₂, hnb₂, hr⟩
            · simp only [List.mem_append] at h₃
              rcases h₃ with h₃ | h₃
              · exact Or.inl h₃
              · exact Or.inr ⟨nb, List.mem_cons_self nb rest,
                  ih g nb st.2 l' vis₂' hrs x h₃⟩
            · exact Or.inr ⟨nb₂, List.mem_cons_of_mem nb hnb₂, hr⟩
    intro x hx
    cases hslice : slice_array g.board c with
    | none =>
      simp only [revealed_squares, hslice] at h
      exact Option.noConfusion h
    | some v =>
      by_cases hv : v = ND.cell (Cell.num 0)
      · subst hv
        rw [rs_eq_flood hslice] at h
        rcases hfold _ _ _ h x hx with h₃ | ⟨nb, hnb, hr⟩
        · rw [List.mem_singleton.mp h₃]
          exact Relation.ReflTransGen.refl
        · exact Relation.ReflTransGen.head
            ⟨hslice, mem_sortFinset.mp hnb⟩ hr
      · rw [rs_eq_stop hslice hv] at h
        cases h
        rw [List.mem_singleton.mp hx]
        exact Relation.ReflTransGen.refl

/-- Freshness: started outside the visited set, the DFS lists each coordinate
at most once and only coordinates outside the initial visited set. -/
theorem rs_fresh :
    ∀ (fuel : Nat) (g : Game) (c : List Int) (vis : Finset (List Int))
      (l : List (List Int)) (vis₂ : Finset (List Int)),
      revealed_squares fuel g c vis = some (l, vis₂) → c ∉ vis →
      l.Nodup ∧ ∀ x ∈ l, x ∉ vis := by
  intro fuel
  induction fuel with
  | zero =>
    intro g c vis l vis₂ h
    exact Option.noConfusion h
  | succ fuel ih =>
    intro g c vis l vis₂ h hc
    have hfold : ∀ (ns : List (List Int)) (a : List (List Int))
        (v : Finset (List Int)) (res : List (List Int) × Finset (List Int)),
        a.Nodup → (∀ y ∈ a, y ∈ v) →
        ns.foldlM (rsStep fuel g) (a, v) = some res →
        res.1.Nodup ∧ (∀ y ∈ res.1, y ∈ res.2) ∧
          (∀ x ∈ res.1, x ∉ a → x ∉ v) := by
      intro ns
      induction ns with
      | nil =>
        intro a v res hand hav h₂
        simp only [List.foldlM_nil] at h₂
        cases h₂
        refine ⟨hand, ?_, ?_⟩
        · intro y hy
          exact hav y hy
        · intro x hx hxa
          exact absurd hx hxa
      | cons nb rest ihn =>
        intro a v res hand hav h₂
        rw [List.foldlM_cons] at h₂
        by_cases hnb : nb ∈ ((a, v) : List (List Int) × Finset (List Int)).2
        · rw [rsStep, if_pos hnb] at h₂
          exact ihn a v res hand hav h₂
        · rw [rsStep, if_neg hnb] at h₂
          cases hrs : revealed_squares fuel g nb v with
          | none =>
            rw [hrs] at h₂
            exact Option.noConfusion h₂
          | some p =>
            obtain ⟨l', vis₂'⟩ := p
            rw [hrs] at h₂
            obtain ⟨hl'nd, hl'av⟩ := ih g nb v l' vis₂' hrs hnb
            obtain ⟨_, hvis'⟩ := rs_basic fuel g nb v l' vis₂' hrs
            have hand₂ : (a ++ l').Nodup := by
              rw [List.nodup_append]
              refine ⟨hand, hl'nd, ?_⟩
              intro y hy hy₂
              exact hl'av y hy₂ (hav y hy)
            have hav₂ : ∀ y ∈ a ++ l', y ∈ insert nb vis₂' := by
              intro y hy
              rcases List.mem_append.mp hy with hy | hy
              · rw [hvis']
                exact Finset.mem_insert_of_mem (Finset.mem_union_left _ (hav y hy))
              · rw [hvis']
                exact Finset.mem_insert_of_mem
                  (Finset.mem_union_right _ (List.mem_toFinset.mpr hy))
            obtain ⟨hres1, hres2, hres3⟩ :=
              ihn (a ++ l') (insert nb vis₂') res hand₂ hav₂ h₂
            refine ⟨hres1, hres2, ?_⟩
            intro x hx hxa
            by_cases hxl : x ∈ l'
            · exact hl'av x hxl
            · have hx₂ : x ∉ a ++ l' := by
                intro hcon
                rcases List.mem_append.mp hcon with hcon | hcon
                · exact hxa hcon
                · exact hxl hcon
              intro hxv
              exact hres3 x hx hx₂ (by
                rw [hvis']
                exact Finset.mem_insert_of_mem (Finset.mem_union_left _ hxv))
    cases hslice : slice_array g.board c with
    | none =>
      simp only [revealed_squares, hslice] at h
      exact Option.noConfusion h
    | some v =>
      by_cases hv : v = ND.cell (Cell.num 0)
      · subst hv
        rw [rs_eq_flood hslice] at h
        obtain ⟨hnd, _, havoid⟩ := hfold _ [c] (insert c vis) _
          (List.nodup_singleton c)
          (by
            intro y hy
            rw [List.mem_singleton.mp hy]
            exact Finset.mem_insert_self c vis) h
        refine ⟨hnd, ?_⟩
        intro x hx
        by_cases hxc : x = c
        · rw [hxc]; exact hc
        · intro hxv
          exact havoid x hx (by simp [hxc]) (Finset.mem_insert_of_mem hxv)
      · rw [rs_eq_stop hslice hv] at h
        cases h
        refine ⟨List.nodup_singleton c, ?_⟩
        intro x hx
        rw [List.mem_singleton.mp hx]
        exact hc

/-- Saturation: every zero-valued coordinate the DFS lists has had its whole
neighbor set put into the final visited set. -/
theorem rs_sat :
    ∀ (fuel : Nat) (g : Game) (c : List Int) (vis : Finset (List Int))
      (l : List (List Int)) (vis₂ : Finset (List Int)),
      revealed_squares fuel g c vis = some (l, vis₂) →
      ∀ z ∈ l, slice_array g.board z = some (ND.cell (Cell.num 0)) →
        ∀ nb ∈ recursive_helper z g.dimensions.length g.dimensions, nb ∈ vis₂ := by
  intro fuel
  induction fuel with
  | zero =>
    intro g c vis l vis₂ h
    exact Option.noConfusion h
  | succ fuel ih =>
    intro g c vis l vis₂ h
    have hfold : ∀ (ns : List (List Int)) (st res : List (List Int) × Finset (List Int)),
        ns.foldlM (rsStep fuel g) st = some res →
        (∀ y ∈ ns, y ∈ res.2) ∧
        (∀ z, z ∈ res.1 → z ∉ st.1 →
          slice_array g.board z = some (ND.cell (Cell.num 0)) →
          ∀ nb ∈ recursive_helper z g.dimensions.length g.dimensions, nb ∈ res.2) := by
      intro ns
      induction ns with
      | nil =>
        intro st res h₂
        simp only [List.foldlM_nil] at h₂
        cases h₂
        refine ⟨by intro y hy; exact absurd hy (List.not_mem_nil y), ?_⟩
        intro z hz hz₂
        exact absurd hz hz₂
      | cons nb rest ihn =>
        intro st res h₂
        rw [List.foldlM_cons] at h₂
        by_cases hnb : nb ∈ st.2
        · rw [rsStep, if_pos hnb] at h₂
          obtain ⟨extra, _, hres2⟩ := rsFold_basic fuel g rest st res h₂
          obtain ⟨hns, hsat⟩ := ihn st res h₂
          refine ⟨?_, hsat⟩
          intro y hy
          rcases List.mem_cons.mp hy with rfl | hy₂
          · rw [hres2]
            exact Finset.mem_union_left _ hnb
          · exact hns y hy₂
        · rw [rsStep, if_neg hnb] at h₂
          cases hrs : revealed_squares fuel g nb st.2 with
          | none =>
            rw [hrs] at h₂
            exact Option.noConfusion h₂
          | some p =>
            obtain ⟨l', vis₂'⟩ := p
            rw [hrs] at h₂
            obtain ⟨hns, hsat⟩ := ihn _ res h₂
            obtain ⟨extra₂, hres1, hres2⟩ := rsFold_basic fuel g rest _ res h₂
            simp only at hres1 hres2
            have hmono : ∀ y ∈ insert nb vis₂', y ∈ res.2 := by
              intro y hy
              rw [hres2]
              exact Finset.mem_union_left _ hy
            refine ⟨?_, ?_⟩
            · intro y hy
              rcases List.mem_cons.mp hy with rfl | hy₂
              · exact hmono y (Finset.mem_insert_self _ _)
              · exact hns y hy₂
            · intro z hz hznot hzero nb₂ hnb₂
              by_cases hzl : z ∈ l'
              · have := ih g nb st.2 l' vis₂' hrs z hzl hzero nb₂ hnb₂
                exact hmono nb₂ (Finset.mem_insert_of_mem this)
              · have hznot₂ : z ∉ st.1 ++ l' := by
                  intro hcon
                  rcases List.mem_append.mp hcon with hcon | hcon
                  · exact hznot hcon
                  · exact hzl hcon
                exact hsat z hz hznot₂ hzero nb₂ hnb₂
    cases hslice : slice_array g.board c with
    | none =>
      simp only [revealed_squares, hslice] at h
      exact Option.noConfusion h
    | some v =>
      by_cases hv : v = ND.cell (Cell.num 0)
      · subst hv
        rw [rs_eq_flood hslice] at h
        obtain ⟨hns, hsat⟩ := hfold _ _ _ h
        intro z hz hzero nb hnb
        by_cases hzc : z = c
        · subst hzc
          exact hns nb (mem_sortFinset.mpr hnb)
        · exact hsat z hz (by simp [hzc]) hzero nb hnb
      · rw [rs_eq_stop hslice hv] at h
        cases h
        intro z hz hzero
        rw [List.mem_singleton.mp hz] at hzero
        rw [hslice] at hzero
        cases hzero
        exact absurd rfl hv

/-- Completeness: starting with an empty visited set, the DFS lists everything
reachable through zero-cells. -/
theorem rs_complete (fuel : Nat) (g : Game) (c : List Int)
    {l : List (List Int)} {vis₂ : Finset (List Int)}
    (h : revealed_squares fuel g c ∅ = some (l, vis₂)) :
    ∀ y, Reach g c y → y ∈ l := by
  obtain ⟨⟨rest, hl⟩, hvis⟩ := rs_basic fuel g c ∅ l vis₂ h
  have hvis₂ : vis₂ = l.toFinset := by
    rw [hvis]
    simp
  intro y hy
  induction hy with
  | refl =>
    rw [hl]
    exact List.mem_cons_self c rest
  | tail hab hbc ihb =>
    rename_i b c₂
    have := rs_sat fuel g c ∅ l vis₂ h b ihb hbc.1 c₂ hbc.2
    rw [hvis₂] at this
    exact List.mem_toFinset.mp this

theorem length_flatMap_const {β : Type} (f : Nat → List β) (K : Nat)
    (hf : ∀ i, (f i).length = K) :
    ∀ n : Nat, ((List.range n).flatMap f).length = n * K := by
  intro n
  induction n with
  | zero => simp
  | succ n ihn =>
    rw [List.range_succ, List.flatMap_append, List.length_append, ihn]
    simp only [List.flatMap_cons, List.flatMap_nil, List.append_nil, hf n]
    ring

theorem length_generate_coordinates :
    ∀ dims : List Int,
      (generate_coordinates dims).length = (dims.map (fun d => d.toNat)).prod
  | [] => by simp [generate_coordinates]
  | d :: rest => by
    simp only [generate_coordinates]
    rw [length_flatMap_const _ (generate_coordinates rest).length
      (fun i => by simp) d.toNat]
    rw [length_generate_coordinates rest]
    simp

theorem mem_canonFinset {dims c : List Int} :
    c ∈ canonFinset dims ↔ Canonical dims c := by
  rw [canonFinset, List.mem_toFinset]
  exact mem_generate_coordinates

theorem prod_toNat_le :
    ∀ dims : List Int,
      (dims.map (fun d => d.toNat)).prod ≤ (dims.map (fun d => d.toNat + 1)).prod
  | [] => le_refl 1
  | d :: rest => by
    simp only [List.map_cons, List.prod_cons]
    exact Nat.mul_le_mul (Nat.le_succ _) (prod_toNat_le rest)

theorem card_canonFinset_lt_digFuel (dims : List Int) :
    (canonFinset dims).card < digFuel dims := by
  have h1 : (canonFinset dims).card ≤ (generate_coordinates dims).length :=
    (generate_coordinates dims).toFinset_card_le
  have h2 := length_generate_coordinates dims
  have h3 := prod_toNat_le dims
  rw [digFuel]
  omega

/-- Sufficiency: with enough fuel the DFS from a canonical unvisited coordinate
on a shaped board always returns. -/
theorem rs_suff :
    ∀ (fuel : Nat) (g : Game), Shaped g.dimensions g.board →
      1 ≤ g.dimensions.length →
      ∀ (c : List Int) (vis : Finset (List Int)), Canonical g.dimensions c →
        c ∉ vis → (canonFinset g.dimensions \ vis).card < fuel →
        (revealed_squares fuel g c vis).isSome := by
  intro fuel
  induction fuel with
  | zero =>
    intro g _ _ c vis _ _ hcard
    omega
  | succ fuel ih =>
    intro g hsh hN c vis hc hcvis hcard
    obtain ⟨v, hv⟩ := slice_array_shaped hsh hc
    have hstrict : ∀ vis₃ : Finset (List Int), insert c vis ⊆ vis₃ →
        (canonFinset g.dimensions \ vis₃).card < fuel := by
      intro vis₃ hsub
      have hsub₁ : canonFinset g.dimensions \ vis₃ ⊆
          canonFinset g.dimensions \ insert c vis :=
        Finset.sdiff_subset_sdiff (Finset.Subset.refl _) hsub
      have hss : canonFinset g.dimensions \ insert c vis ⊂
          canonFinset g.dimensions \ vis := by
        rw [Finset.ssubset_iff_of_subset
          (Finset.sdiff_subset_sdiff (Finset.Subset.refl _) (Finset.subset_insert c vis))]
        refine ⟨c, ?_, ?_⟩
        · rw [Finset.mem_sdiff, mem_canonFinset]
          exact ⟨hc, hcvis⟩
        · rw [Finset.mem_sdiff]
          intro hcon
          exact hcon.2 (Finset.mem_insert_self c vis)
      have := Finset.card_lt_card hss
      have := Finset.card_le_card hsub₁
      omega
    by_cases hz : v = Cell.num 0
    · subst hz
      rw [rs_eq_flood hv]
      have hns : ∀ nb ∈ sortFinset
          (recursive_helper c g.dimensions.length g.dimensions),
          Canonical g.dimensions nb :=
        fun nb hnb => mem_rh_canonical hc hN (mem_sortFinset.mp hnb)
      suffices hkey : ∀ (ns : List (List Int)),
          (∀ nb ∈ ns, Canonical g.dimensions nb) →
          ∀ st : List (List Int) × Finset (List Int), insert c vis ⊆ st.2 →
          (ns.foldlM (rsStep fuel g) st).isSome by
        exact hkey _ hns ([c], insert c vis) (Finset.Subset.refl _)
      intro ns
      induction ns with
      | nil =>
        intro _ st _
        rfl
      | cons nb rest ihn =>
        intro hcan st hsub
        rw [List.foldlM_cons]
        by_cases hnb : nb ∈ st.2
        · rw [rsStep, if_pos hnb]
          exact ihn (fun y hy => hcan y (List.mem_cons_of_mem nb hy)) st hsub
        · rw [rsStep, if_neg hnb]
          have hrs := ih g hsh hN nb st.2 (hcan nb (List.mem_cons_self nb rest))
            hnb (hstrict st.2 hsub)
          obtain ⟨p, hp⟩ := Option.isSome_iff_exists.mp hrs
          obtain ⟨l', vis₂'⟩ := p
          rw [hp]
          obtain ⟨_, hvis'⟩ := rs_basic fuel g nb st.2 l' vis₂' hp
          refine ihn (fun y hy => hcan y (List.mem_cons_of_mem nb hy)) _ ?_
          intro y hy
          refine Finset.mem_insert_of_mem ?_
          rw [hvis']
          exact Finset.mem_union_left _ (hsub hy)
    · rw [rs_eq_stop hv (fun hcon => hz (ND.cell.inj hcon))]
      rfl

/-- The reveal loop: succeeds on shaped input over canonical duplicate-free
coordinates, marks exactly the listed coordinates, and counts those that were
hidden before. -/
theorem revealLoop_spec {dims : List Int} (hd : dims ≠ []) :
    ∀ (l : List (List Int)) (vis : ND Bool) (cnt : Nat), Shaped dims vis →
      (∀ x ∈ l, Canonical dims x) → l.Nodup →
      ∃ vis₂ r, revealLoop vis l cnt = some (vis₂, r) ∧ Shaped dims vis₂ ∧
        r = cnt + l.countP (fun x => hiddenB vis x) ∧
        (∀ x, Canonical dims x → x ∈ l → slice_array vis₂ x = some (ND.cell true)) ∧
        (∀ x, Canonical dims x → x ∉ l → slice_array vis₂ x = slice_array vis x) := by
  intro l
  induction l with
  | nil =>
    intro vis cnt hsh _ _
    exact ⟨vis, cnt, rfl, hsh, by simp, fun x _ hx => absurd hx (List.not_mem_nil x),
      fun x _ _ => rfl⟩
  | cons t rest ihl =>
    intro vis cnt hsh hcan hnd
    have htc : Canonical dims t := hcan t (List.mem_cons_self t rest)
    have htr : t ∉ rest := (List.nodup_cons.mp hnd).1
    obtain ⟨b, hb⟩ := slice_array_shaped hsh htc
    cases b with
    | false =>
      obtain ⟨vis₁, hupd, hsh₁, hget₁, hfr₁⟩ :=
        update_shaped hsh htc (canonical_ne_nil htc hd) true
      obtain ⟨vis₂, r, hloop, hsh₂, hr, hmark, hfr⟩ :=
        ihl vis₁ (cnt + 1) hsh₁ (fun y hy => hcan y (List.mem_cons_of_mem t hy))
          (List.nodup_cons.mp hnd).2
      refine ⟨vis₂, r, ?_, hsh₂, ?_, ?_, ?_⟩
      · rw [revealLoop, hb, hupd]
        exact hloop
      · rw [hr]
        have hcong : rest.countP (fun x => hiddenB vis₁ x) =
            rest.countP (fun x => hiddenB vis x) := by
          refine List.countP_congr ?_
          intro y hy
          have hyne : y ≠ t := fun h => htr (h ▸ hy)
          rw [hiddenB, hiddenB,
            hfr₁ y (hcan y (List.mem_cons_of_mem t hy)) hyne]
        rw [hcong, List.countP_cons]
        have hht : hiddenB vis t = true := by
          rw [hiddenB, hb]
        rw [if_pos hht]
        omega
      · intro x hx hxm
        rcases List.mem_cons.mp hxm with rfl | hxm₂
        · rw [hfr x hx htr]
          exact hget₁
        · exact hmark x hx hxm₂
      · intro x hx hxm
        have hxt : x ≠ t := fun h => hxm (h ▸ List.mem_cons_self t rest)
        have hxr : x ∉ rest := fun h => hxm (List.mem_cons_of_mem t h)
        rw [hfr x hx hxr]
        exact hfr₁ x hx hxt
    | true =>
      obtain ⟨vis₂, r, hloop, hsh₂, hr, hmark, hfr⟩ :=
        ihl vis cnt hsh (fun y hy => hcan y (List.mem_cons_of_mem t hy))
          (List.nodup_cons.mp hnd).2
      refine ⟨vis₂, r, ?_, hsh₂, ?_, ?_, ?_⟩
      · rw [revealLoop, hb]
        exact hloop
      · rw [hr, List.countP_cons]
        have hht : hiddenB vis t = false := by
          rw [hiddenB, hb]
        rw [if_neg (by simp [hht])]
        omega
      · intro x hx hxm
        rcases List.mem_cons.mp hxm with rfl | hxm₂
        · rw [hfr x hx htr]
          exact hb
        · exact hmark x hx hxm₂
      · intro x hx hxm
        have hxr : x ∉ rest := fun h => hxm (List.mem_cons_of_mem t h)
        exact hfr x hx hxr

/-- The win-check loop counts the hidden non-mine coordinates of the board. -/
theorem countHiddenSafe_spec {dims : List Int} {board : ND Cell} {vis : ND Bool}
    (hshb : Shaped dims board) (hshv : Shaped dims vis) :
    countHiddenSafe board vis dims =
      some ((generate_coordinates dims).countP
        (fun i => hiddenB vis i && !mineB board i)) := by
  suffices h : ∀ (coords : List (List Int)), (∀ i ∈ coords, Canonical dims i) →
      ∀ cnt : Nat, coords.foldlM
        (fun cnt i =>
          match slice_array vis i with
          | none => none
          | some (ND.cell false) =>
            match slice_array board i with
            | none => none
            | some (ND.cell Cell.mine) => some cnt
            | some _ => some (cnt + 1)
          | some _ => some cnt) cnt
        = some (cnt + coords.countP (fun i => hiddenB vis i && !mineB board i)) by
    have h₂ := h (generate_coordinates dims)
      (fun i hi => mem_generate_coordinates.mp hi) 0
    rw [countHiddenSafe]
    simpa using h₂
  intro coords
  induction coords with
  | nil =>
    intro _ cnt
    simp
  | cons i rest ihc =>
    intro hcan cnt
    have hic : Canonical dims i := hcan i (List.mem_cons_self i rest)
    obtain ⟨bv, hbv⟩ := slice_array_shaped hshv hic
    obtain ⟨cv, hcv⟩ := slice_array_shaped hshb hic
    have hrest := ihc (fun y hy => hcan y (List.mem_cons_of_mem i hy))
    cases bv with
    | false =>
      cases cv with
      | mine =>
        have hp : (hiddenB vis i && !mineB board i) = false := by
          rw [hiddenB, mineB, hbv, hcv]
          rfl
        have hcountq : cnt + List.countP (fun i => hiddenB vis i && !mineB board i) (i :: rest)
            = cnt + List.countP (fun i => hiddenB vis i && !mineB board i) rest := by
          simp [List.countP_cons, hp]
        rw [List.foldlM_cons, hbv, hcv, hcountq]
        exact hrest cnt
      | num k =>
        have hp : (hiddenB vis i && !mineB board i) = true := by
          rw [hiddenB, mineB, hbv, hcv]
          rfl
        have hcountq : cnt + List.countP (fun i => hiddenB vis i && !mineB board i) (i :: rest)
            = (cnt + 1) + List.countP (fun i => hiddenB vis i && !mineB board i) rest := by
          simp [List.countP_cons, hp]
          try omega
        rw [List.foldlM_cons, hbv, hcv, hcountq]
        exact hrest (cnt + 1)
    | true =>
      have hp : (hiddenB vis i && !mineB board i) = false := by
        rw [hiddenB, hbv]
        rfl
      have hcountq : cnt + List.countP (fun i => hiddenB vis i && !mineB board i) (i :: rest)
          = cnt + List.countP (fun i => hiddenB vis i && !mineB board i) rest := by
        simp [List.countP_cons, hp]
      rw [List.foldlM_cons, hbv, hcountq]
      exact hrest cnt

/-- Reachability through zero-cells stays canonical. -/
theorem reach_canonical {g : Game} (hN : 1 ≤ g.dimensions.length)
    {c x : List Int} (hc : Canonical g.dimensions c) (h : Reach g c x) :
    Canonical g.dimensions x := by
  induction h with
  | refl => exact hc
  | tail hab hbc ih => exact mem_rh_canonical ih hN hbc.2

/-- On a duplicate-free list the Boolean count is the card of the filtered finset. -/
theorem countP_nodup_card {l : List (List Int)} (hnd : l.Nodup) (p : List Int → Bool) :
    l.countP p = (l.toFinset.filter (fun x => p x = true)).card := by
  rw [List.countP_eq_length_filter, ← List.toFinset_filter,
    List.toFinset_card_of_nodup (hnd.filter p)]

/-- Digging a safe canonical cell of an ongoing game succeeds, reveals exactly
the flood-fill region reachable from the dig through zero-cells, returns how
many of those cells were newly revealed, leaves every other cell alone, and
sets the state by the hidden-safe-cell count of the new visibility. -/
theorem dig_safe_spec {g : Game} {c : List Int} {k : Nat}
    (hshb : Shaped g.dimensions g.board) (hshv : Shaped g.dimensions g.visible)
    (hd : g.dimensions ≠ []) (hst : g.state = GState.ongoing)
    (hc : Canonical g.dimensions c)
    (hk : slice_array g.board c = some (ND.cell (Cell.num k))) :
    ∃ (l : List (List Int)) (vis₂ : ND Bool) (r : Nat) (st₂ : GState),
      dig_nd g c = some (r, { g with visible := vis₂, state := st₂ }) ∧
      Shaped g.dimensions vis₂ ∧
      l.Nodup ∧
      (∀ y, y ∈ l ↔ Reach g c y) ∧
      r = l.countP (fun x => hiddenB g.visible x) ∧
      (∀ x, x ∈ l → slice_array vis₂ x = some (ND.cell true)) ∧
      (∀ x, Canonical g.dimensions x → x ∉ l →
        slice_array vis₂ x = slice_array g.visible x) ∧
      (st₂ = GState.ongoing ∨ st₂ = GState.victory) ∧
      (st₂ = GState.victory ↔
        (generate_coordinates g.dimensions).countP
          (fun i => hiddenB vis₂ i && !mineB g.board i) = 0) := by
  have hN : 1 ≤ g.dimensions.length := List.length_pos.mpr hd
  have hfuel : ((canonFinset g.dimensions) \ (∅ : Finset (List Int))).card
      < digFuel g.dimensions := by
    rw [Finset.sdiff_empty]
    exact card_canonFinset_lt_digFuel g.dimensions
  obtain ⟨⟨l, visF⟩, hrs⟩ := Option.isSome_iff_exists.mp
    (rs_suff (digFuel g.dimensions) g hshb hN c ∅ hc (Finset.not_mem_empty c) hfuel)
  have hndl : l.Nodup :=
    (rs_fresh (digFuel g.dimensions) g c ∅ l visF hrs (Finset.not_mem_empty c)).1
  have hmem : ∀ y, y ∈ l ↔ Reach g c y := by
    intro y
    constructor
    · intro hy
      exact rs_sound (digFuel g.dimensions) g c ∅ l visF hrs y hy
    · intro hy
      exact rs_complete (digFuel g.dimensions) g c hrs y hy
  have hcanl : ∀ y ∈ l, Canonical g.dimensions y := by
    intro y hy
    exact reach_canonical hN hc ((hmem y).mp hy)
  obtain ⟨vis₂, r, hloop, hsh₂, hr, hmarksraw, hframe⟩ :=
    revealLoop_spec hd l g.visible 0 hshv hcanl hndl
  have hr' : r = l.countP (fun x => hiddenB g.visible x) := by
    rw [hr, Nat.zero_add]
  have hmarks : ∀ x, x ∈ l → slice_array vis₂ x = some (ND.cell true) := by
    intro x hx
    exact hmarksraw x (hcanl x hx) hx
  have hcount := countHiddenSafe_spec hshb hsh₂
  set K := (generate_coordinates g.dimensions).countP
    (fun i => hiddenB vis₂ i && !mineB g.board i) with hK
  have hdig : dig_nd g c =
      (if K ≠ 0 then some (r, { g with visible := vis₂, state := GState.ongoing })
        else some (r, { g with visible := vis₂, state := GState.victory })) := by
    rw [dig_nd, if_neg (by rw [hst]; exact fun h => nomatch h)]
    rw [hk]
    show (match revealed_squares (digFuel g.dimensions) g c ∅ with
      | none => none
      | some (l, _) =>
        match revealLoop g.visible l 0 with
        | none => none
        | some (vis₂, r) =>
          match countHiddenSafe g.board vis₂ g.dimensions with
          | none => none
          | some cnt =>
            if cnt ≠ 0 then some (r, { g with visible := vis₂, state := GState.ongoing })
            else some (r, { g with visible := vis₂, state := GState.victory })) = _
    rw [hrs]
    show (match revealLoop g.visible l 0 with
      | none => none
      | some (vis₂, r) =>
        match countHiddenSafe g.board vis₂ g.dimensions with
        | none => none
        | some cnt =>
          if cnt ≠ 0 then some (r, { g with visible := vis₂, state := GState.ongoing })
          else some (r, { g with visible := vis₂, state := GState.victory })) = _
    rw [hloop]
    show (match countHiddenSafe g.board vis₂ g.dimensions with
      | none => none
      | some cnt =>
        if cnt ≠ 0 then some (r, { g with visible := vis₂, state := GState.ongoing })
        else some (r, { g with visible := vis₂, state := GState.victory })) = _
    rw [hcount]
  by_cases hK0 : K = 0
  · refine ⟨l, vis₂, r, GState.victory,
      ?_, hsh₂, hndl, hmem, hr', hmarks, hframe, Or.inr rfl, ?_⟩
    · rw [hdig, if_neg (by simpa using hK0)]
    · exact ⟨fun _ => hK0, fun _ => rfl⟩
  · refine ⟨l, vis₂, r, GState.ongoing,
      ?_, hsh₂, hndl, hmem, hr', hmarks, hframe, Or.inl rfl, ?_⟩
    · rw [hdig, if_pos (by simpa using hK0)]
    · constructor
      · intro h
        exact nomatch h
      · intro h
        exact absurd h hK0

/-- C2: digging a non-mine coordinate of an ongoing game reveals exactly the
flood-fill set (the dug coordinate plus everything reachable through
neighbor hops leaving only cells of board value 0), leaves every other cell's
visibility unchanged, and returns the number of cells of that set that were
previously hidden.  On the spec's 2x4 example, however, `dig((0,3))` returns 4
with visibility `[[F,F,T,T],[F,F,T,T]]` and the state stays `ongoing` (the
safe cell (0,1) is still hidden), not `victory` as the spec asserts. -/
theorem C2_flood_fill {g : Game} {c : List Int} {k : Nat}
    (hshb : Shaped g.dimensions g.board) (hshv : Shaped g.dimensions g.visible)
    (hd : g.dimensions ≠ []) (hst : g.state = GState.ongoing)
    (hc : Canonical g.dimensions c)
    (hk : slice_array g.board c = some (ND.cell (Cell.num k))) :
    (∃ (l : List (List Int)) (r : Nat) (g' : Game),
      dig_nd g c = some (r, g') ∧
      g'.board = g.board ∧ g'.dimensions = g.dimensions ∧
      l.Nodup ∧
      (∀ y, y ∈ l ↔ Reach g c y) ∧
      r = l.countP (fun x => hiddenB g.visible x) ∧
      (∀ x, x ∈ l → slice_array g'.visible x = some (ND.cell true)) ∧
      (∀ x, Canonical g.dimensions x → x ∉ l →
        slice_array g'.visible x = slice_array g.visible x)) ∧
    dig_nd {
      dimensions := [2, 4],
      board := ND.arr [ND.arr [ND.cell Cell.mine, ND.cell (Cell.num 3),
                               ND.cell (Cell.num 1), ND.cell (Cell.num 0)],
                       ND.arr [ND.cell Cell.mine, ND.cell Cell.mine,
                               ND.cell (Cell.num 1), ND.cell (Cell.num 0)]],
      visible := ND.arr [ND.arr [ND.cell false, ND.cell false,
                                 ND.cell false, ND.cell false],
                         ND.arr [ND.cell false, ND.cell false,
                                 ND.cell false, ND.cell false]],
      state := GState.ongoing } [0, 3] =
    some (4, {
      dimensions := [2, 4],
      board := ND.arr [ND.arr [ND.cell Cell.mine, ND.cell (Cell.num 3),
                               ND.cell (Cell.num 1), ND.cell (Cell.num 0)],
                       ND.arr [ND.cell Cell.mine, ND.cell Cell.mine,
                               ND.cell (Cell.num 1), ND.cell (Cell.num 0)]],
      visible := ND.arr [ND.arr [ND.cell false, ND.cell false,
                                 ND.cell true, ND.cell true],
                         ND.arr [ND.cell false, ND.cell false,
                                 ND.cell true, ND.cell true]],
      state := GState.ongoing }) := by
  constructor
  · obtain ⟨l, vis₂, r, st₂, hdig, _, hndl, hmem, hr, hmarks, hframe, _, _⟩ :=
      dig_safe_spec hshb hshv hd hst hc hk
    exact ⟨l, r, { g with visible := vis₂, state := st₂ },
      hdig, rfl, rfl, hndl, hmem, hr, hmarks, hframe⟩
  · rfl

/-- The spec's C2 example asserts the dig ends in `victory`; the code leaves the
state `ongoing` (cell (0,1) is a hidden non-mine cell after the dig). -/
theorem C2_counterexample :
    (dig_nd {
      dimensions := [2, 4],
      board := ND.arr [ND.arr [ND.cell Cell.mine, ND.cell (Cell.num 3),
                               ND.cell (Cell.num 1), ND.cell (Cell.num 0)],
                       ND.arr [ND.cell Cell.mine, ND.cell Cell.mine,
                               ND.cell (Cell.num 1), ND.cell (Cell.num 0)]],
      visible := ND.arr [ND.arr [ND.cell false, ND.cell false,
                                 ND.cell false, ND.cell false],
                         ND.arr [ND.cell false, ND.cell false,
                                 ND.cell false, ND.cell false]],
      state := GState.ongoing } [0, 3]).map (fun p => p.2.state) =
      some GState.ongoing ∧ GState.ongoing ≠ GState.victory := by
  constructor
  · rfl
  · intro h
    exact nomatch h

/-- Witness for C2 at the 2x4 doctest board, digging the zero cell (0,3). -/
theorem C2_flood_fill_witness :
    ∃ (l : List (List Int)) (r : Nat) (g' : Game),
      dig_nd {
        dimensions := [2, 4],
        board := ND.arr [ND.arr [ND.cell Cell.mine, ND.cell (Cell.num 3),
                                 ND.cell (Cell.num 1), ND.cell (Cell.num 0)],
                         ND.arr [ND.cell Cell.mine, ND.cell Cell.mine,
                                 ND.cell (Cell.num 1), ND.cell (Cell.num 0)]],
        visible := ND.arr [ND.arr [ND.cell false, ND.cell false,
                                   ND.cell false, ND.cell false],
                           ND.arr [ND.cell false, ND.cell false,
                                   ND.cell false, ND.cell false]],
        state := GState.ongoing } [0, 3] = some (r, g') ∧
      (∀ y, y ∈ l ↔ Reach {
        dimensions := [2, 4],
        board := ND.arr [ND.arr [ND.cell Cell.mine, ND.cell (Cell.num 3),
                                 ND.cell (Cell.num 1), ND.cell (Cell.num 0)],
                         ND.arr [ND.cell Cell.mine, ND.cell Cell.mine,
                                 ND.cell (Cell.num 1), ND.cell (Cell.num 0)]],
        visible := ND.arr [ND.arr [ND.cell false, ND.cell false,
                                   ND.cell false, ND.cell false],
                           ND.arr [ND.cell false, ND.cell false,
                                   ND.cell false, ND.cell false]],
        state := GState.ongoing } [0, 3] y) ∧ r = 4 := by
  obtain ⟨⟨l, r, g', hdig, _, _, _, hmem, hr, _, _⟩, hex⟩ :=
    @C2_flood_fill {
      dimensions := [2, 4],
      board := ND.arr [ND.arr [ND.cell Cell.mine, ND.cell (Cell.num 3),
                               ND.cell (Cell.num 1), ND.cell (Cell.num 0)],
                       ND.arr [ND.cell Cell.mine, ND.cell Cell.mine,
                               ND.cell (Cell.num 1), ND.cell (Cell.num 0)]],
      visible := ND.arr [ND.arr [ND.cell false, ND.cell false,
                                 ND.cell false, ND.cell false],
                         ND.arr [ND.cell false, ND.cell false,
                                 ND.cell false, ND.cell false]],
      state := GState.ongoing } [0, 3] 0
      (shaped_two_by_four _ _ _ _ _ _ _ _) (shaped_two_by_four _ _ _ _ _ _ _ _)
      (by intro h; exact nomatch h) rfl (by decide) rfl
  refine ⟨l, r, g', hdig, hmem, ?_⟩
  rw [hdig] at hex
  have h4 : (r, g').1 = ((4 : Nat), ({
      dimensions := [2, 4],
      board := ND.arr [ND.arr [ND.cell Cell.mine, ND.cell (Cell.num 3),
                               ND.cell (Cell.num 1), ND.cell (Cell.num 0)],
                       ND.arr [ND.cell Cell.mine, ND.cell Cell.mine,
                               ND.cell (Cell.num 1), ND.cell (Cell.num 0)]],
      visible := ND.arr [ND.arr [ND.cell false, ND.cell false,
                                 ND.cell true, ND.cell true],
                         ND.arr [ND.cell false, ND.cell false,
                                 ND.cell true, ND.cell true]],
      state := GState.ongoing } : Game)).1 := by
    rw [Option.some_inj.mp hex]
  exact h4

/-- A fresh game satisfies the play invariant. -/
theorem new_game_inv {dims : List Int} {mines : List (List Int)} {g : Game}
    (hd : dims ≠ []) (hm : ∀ m ∈ mines, Canonical dims m)
    (hng : new_game_nd dims mines = some g) : PlayInv g := by
  have hN : 1 ≤ dims.length := List.length_pos.mpr hd
  obtain ⟨g₂, hng₂, hdims, hstate, _, hshb, hshv, hvfalse, hmine, hsafe⟩ :=
    new_game_spec hd hm
  rw [hng] at hng₂
  obtain rfl : g = g₂ := Option.some_inj.mp hng₂
  refine ⟨by rw [hdims]; exact hd, by rw [hdims]; exact hshb,
    by rw [hdims]; exact hshv, ?_, ?_, ?_⟩
  · intro a b hca hs0 hbrh
    rw [hdims] at hca hbrh
    have ham : a ∉ mines := by
      intro hin
      rw [hmine a hca hin] at hs0
      simp at hs0
    have hval := hsafe a hca ham
    rw [hval] at hs0
    have hcnt : (mines.countP fun m =>
        decide (a ∈ recursive_helper m dims.length dims)) = 0 := by
      simpa using hs0
    have hbcan : Canonical dims b := mem_rh_canonical hca hN hbrh
    by_cases hbm : b ∈ mines
    · exfalso
      have hz := List.countP_eq_zero.mp hcnt b hbm
      have hab : a ∈ recursive_helper b dims.length dims :=
        (mem_rh_symm hca hbcan hN).mp hbrh
      simp [hab] at hz
    · simp [mineB, hsafe b hbcan hbm]
  · intro _ x hcx _
    rw [hdims] at hcx
    exact hvfalse x hcx
  · constructor
    · intro h
      rw [hstate] at h
      exact nomatch h
    · rintro ⟨hA, _, x, hcx, hmx⟩
      exfalso
      have h1 := hA x hcx hmx
      rw [hdims] at hcx
      have h2 := hvfalse x hcx
      rw [h1] at h2
      simp at h2

/-- A successful dig at an in-bounds coordinate preserves the play invariant. -/
theorem dig_inv {g : Game} {c : List Int} {r : Nat} {g' : Game}
    (hI : PlayInv g) (hc : Canonical g.dimensions c)
    (hdig : dig_nd g c = some (r, g')) : PlayInv g' := by
  obtain ⟨hd, hshb, hshv, hzc, hnm, hvic⟩ := hI
  by_cases hterm : g.state = GState.defeat ∨ g.state = GState.victory
  · have hstep : dig_nd g c = some (0, g) := by rw [dig_nd, if_pos hterm]
    rw [hstep] at hdig
    have hpair := Option.some_inj.mp hdig
    have hg : g' = g := (Prod.ext_iff.mp hpair).2.symm
    rw [hg]
    exact ⟨hd, hshb, hshv, hzc, hnm, hvic⟩
  · have hst : g.state = GState.ongoing := by
      cases hgs : g.state with
      | ongoing => rfl
      | defeat => exact absurd (Or.inl hgs) hterm
      | victory => exact absurd (Or.inr hgs) hterm
    have hne : g.state ≠ GState.defeat := by
      rw [hst]
      intro hcon
      exact nomatch hcon
    obtain ⟨v, hv⟩ := slice_array_shaped hshb hc
    cases v with
    | mine =>
      obtain ⟨vis₂, hupd, hsh₂, hget, hfr⟩ :=
        update_shaped hshv hc (canonical_ne_nil hc hd) true
      have hdig₂ : dig_nd g c =
          some (1, { g with visible := vis₂, state := GState.defeat }) := by
        rw [dig_nd, if_neg (by simp [hst])]
        simp [hv, hupd]
      rw [hdig₂] at hdig
      have hpair := Option.some_inj.mp hdig
      have hg : g' = { g with visible := vis₂, state := GState.defeat } :=
        (Prod.ext_iff.mp hpair).2.symm
      subst hg
      refine ⟨hd, hshb, hsh₂, hzc, ?_, ?_⟩
      · intro hcon
        exact absurd rfl hcon
      · constructor
        · intro hcon
          exact nomatch hcon
        · rintro ⟨-, hNM, -⟩
          exfalso
          have hmc : mineB g.board c = true := by simp [mineB, hv]
          have hvisc := hNM c hc hmc
          rw [hget] at hvisc
          simp at hvisc
    | num k =>
      obtain ⟨l, vis₂, r₂, st₂, hdig₂, hsh₂, hndl, hmem, hr, hmarks, hframe,
        hst₂, hvic₂⟩ := dig_safe_spec hshb hshv hd hst hc hv
      rw [hdig₂] at hdig
      have hpair := Option.some_inj.mp hdig
      have hg : g' = { g with visible := vis₂, state := st₂ } :=
        (Prod.ext_iff.mp hpair).2.symm
      subst hg
      have hml : ∀ x, mineB g.board x = true → x ∉ l := by
        intro x hmx hxl
        have hreach := (hmem x).mp hxl
        rcases Relation.ReflTransGen.cases_tail hreach with hxc | ⟨a, haR, hs0, hxr⟩
        · rw [hxc] at hmx
          simp [mineB, hv] at hmx
        · have hca : Canonical g.dimensions a :=
            reach_canonical (List.length_pos.mpr hd) hc haR
          have hsafe := hzc a x hca hs0 hxr
          rw [hsafe] at hmx
          exact nomatch hmx
      have hNM : NoMineVisible { g with visible := vis₂, state := st₂ } := by
        intro x hcx hmx
        have hxl : x ∉ l := hml x hmx
        have hfrx := hframe x hcx hxl
        show slice_array vis₂ x = some (ND.cell false)
        rw [hfrx]
        exact hnm hne x hcx hmx
      refine ⟨hd, hshb, hsh₂, hzc, fun _ => hNM, ?_⟩
      constructor
      · intro hvicst
        have hK := hvic₂.mp hvicst
        refine ⟨?_, hNM, ⟨c, hc, by simp [mineB, hv]⟩⟩
        intro x hcx hmx
        have hxgen : x ∈ generate_coordinates g.dimensions :=
          mem_generate_coordinates.mpr hcx
        have hz := List.countP_eq_zero.mp hK x hxgen
        have hmx₂ : mineB g.board x = false := hmx
        simp only [hmx₂, Bool.not_false, Bool.and_true] at hz
        obtain ⟨b, hb⟩ := slice_array_shaped hsh₂ hcx
        cases b with
        | true => exact hb
        | false =>
          exfalso
          apply hz
          simp [hiddenB, hb]
      · rintro ⟨hA, -, -⟩
        apply hvic₂.mpr
        refine List.countP_eq_zero.mpr ?_
        intro i hi
        have hci : Canonical g.dimensions i := mem_generate_coordinates.mp hi
        by_cases hmi : mineB g.board i = true
        · simp [hmi]
        · have hbi : mineB g.board i = false := by simpa using hmi
          have hvis : slice_array vis₂ i = some (ND.cell true) := hA i hci hbi
          simp [hiddenB, hvis]

/-- Every reachable game satisfies the play invariant. -/
theorem reachable_inv {g : Game} (h : Reachable g) : PlayInv g := by
  induction h with
  | base dims mines g hd hm hng => exact new_game_inv hd hm hng
  | dig g c r g' hR hc hdig ih => exact dig_inv ih hc hdig

/-- C4: in every reachable game the state is `victory` exactly when every
non-mine cell is visible, no mine cell is visible, AND the board has at least
one non-mine cell; the last conjunct is the amendment, since a board made
entirely of mines satisfies the spec's two conditions vacuously from the start
yet the code keeps its state `ongoing` forever. -/
theorem C4_victory_iff {g : Game} (h : Reachable g) :
    g.state = GState.victory ↔
      ((∀ x, Canonical g.dimensions x → mineB g.board x = false →
        slice_array g.visible x = some (ND.cell true)) ∧
       (∀ x, Canonical g.dimensions x → mineB g.board x = true →
        slice_array g.visible x = some (ND.cell false)) ∧
       (∃ x, Canonical g.dimensions x ∧ mineB g.board x = false)) :=
  (reachable_inv h).2.2.2.2.2

/-- The spec's biconditional fails without the amendment: on the 1x1 board
whose single cell is a mine, every non-mine cell is visible (vacuously) and no
mine cell is visible, yet `new_game_nd` starts the game `ongoing`, not
`victory`. -/
theorem C4_counterexample :
    new_game_nd [1] [[0]] = some {
      dimensions := [1],
      board := ND.arr [ND.cell Cell.mine],
      visible := ND.arr [ND.cell false],
      state := GState.ongoing } ∧
    (∀ x, Canonical ([1] : List Int) x →
      mineB (ND.arr [ND.cell Cell.mine]) x = false →
      slice_array (ND.arr [ND.cell false]) x = some (ND.cell true)) ∧
    (∀ x, Canonical ([1] : List Int) x →
      mineB (ND.arr [ND.cell Cell.mine]) x = true →
      slice_array (ND.arr [ND.cell false]) x = some (ND.cell false)) ∧
    GState.ongoing ≠ GState.victory := by
  refine ⟨rfl, ?_, ?_, ?_⟩
  · intro x hcx hmx
    exfalso
    cases hcx with
    | cons hb ht =>
      rename_i c0 tl
      cases ht
      obtain ⟨h0, h1⟩ := hb
      have hc0 : c0 = 0 := by omega
      rw [hc0] at hmx
      exact absurd hmx (by decide)
  · intro x hcx _hmf
    cases hcx with
    | cons hb ht =>
      rename_i c0 tl
      cases ht
      obtain ⟨h0, h1⟩ := hb
      have hc0 : c0 = 0 := by omega
      rw [hc0]
      rfl
  · intro hcon
    exact nomatch hcon

/-- Witness for C4: a reachable victory game on the one-cell mine-free board,
after digging its single cell. -/
theorem C4_victory_iff_witness :
    gameOneWin.state = GState.victory ↔
      ((∀ x, Canonical gameOneWin.dimensions x →
        mineB gameOneWin.board x = false →
        slice_array gameOneWin.visible x = some (ND.cell true)) ∧
       (∀ x, Canonical gameOneWin.dimensions x →
        mineB gameOneWin.board x = true →
        slice_array gameOneWin.visible x = some (ND.cell false)) ∧
       (∃ x, Canonical gameOneWin.dimensions x ∧
        mineB gameOneWin.board x = false)) :=
  @C4_victory_iff gameOneWin
    (Reachable.dig gameOne [0] 1 gameOneWin
      (Reachable.base [1] [] gameOne
        (by intro hcon; exact nomatch hcon)
        (by intro m hm; exact absurd hm (List.not_mem_nil m))
        rfl)
      (by decide) rfl)

/-- C10: in every reachable game off the defeat state no mine cell is visible;
moreover the flood-fill relation started at a non-mine cell never reaches a
mine (it only crosses neighbors of zero-count cells). -/
theorem C10_no_mine_visible {g : Game} (h : Reachable g) :
    (g.state ≠ GState.defeat →
      ∀ x, Canonical g.dimensions x → mineB g.board x = true →
        slice_array g.visible x = some (ND.cell false)) ∧
    (∀ c x, Canonical g.dimensions c → mineB g.board c = false →
      Reach g c x → mineB g.board x = false) := by
  obtain ⟨hd, hshb, -, hzc, hnm, -⟩ := reachable_inv h
  refine ⟨hnm, ?_⟩
  intro c x hcc hmc hreach
  induction hreach with
  | refl => exact hmc
  | tail hab hbc ih =>
    have hcb := reach_canonical (List.length_pos.mpr hd) hcc hab
    exact hzc _ _ hcb hbc.1 hbc.2

/-- Witness for C10 at the freshly constructed 2x4 doctest game. -/
theorem C10_no_mine_visible_witness :
    (gameTwoFour.state ≠ GState.defeat →
      ∀ x, Canonical gameTwoFour.dimensions x →
        mineB gameTwoFour.board x = true →
        slice_array gameTwoFour.visible x = some (ND.cell false)) ∧
    (∀ c x, Canonical gameTwoFour.dimensions c →
      mineB gameTwoFour.board c = false →
      Reach gameTwoFour c x → mineB gameTwoFour.board x = false) :=
  @C10_no_mine_visible gameTwoFour
    (Reachable.base [2, 4] [[0, 0], [1, 0], [1, 1]] gameTwoFour
      (by intro hcon; exact nomatch hcon)
      (by decide) rfl)

